import Mathlib

/-!
Shallow embedding of `heredity.py`: exact Bayesian inference over a small
pedigree (gene-copy count and trait variables per person).

Modelling conventions:
* Python floats are modelled as exact rationals (`ℚ`); the numeric tables of
  the program are small decimal constants, so every arithmetic claim of the
  spec is stated exactly.
* Python sets of names are modelled as `List String` (duplicate-free where the
  program guarantees it); `powerset` mirrors the program's
  `itertools.combinations`-based enumeration, producing a list of subsets.
* The Python dictionaries `people` and `probabilities` are association lists
  keyed by name, in insertion order.
* Python's runtime `ZeroDivisionError` (raised by `1 / 0.0` in `normalize`) is
  modelled with an `Except` codomain.
-/

namespace Heredity

/-- Unconditional gene-count prior `PROBS["gene"]`: 0.96 / 0.03 / 0.01 for
counts 0 / 1 / 2.  Gene counts are `ℕ`; the program only ever indexes the
table with 0, 1 or 2 (the values produced by `get_number_of_genes_by_name`),
so the catch-all arm is never reached by the program. -/
def PROBS_gene : ℕ → ℚ
  | 0 => 96 / 100
  | 1 => 3 / 100
  | 2 => 1 / 100
  | _ => 0

/-- Trait-conditional table `PROBS["trait"]`: probability of each trait value
given the gene count.  As above, only gene counts 0, 1, 2 are ever used. -/
def PROBS_trait : ℕ → Bool → ℚ
  | 2, true => 65 / 100
  | 2, false => 35 / 100
  | 1, true => 56 / 100
  | 1, false => 44 / 100
  | 0, true => 1 / 100
  | 0, false => 99 / 100
  | _, _ => 0

/-- Mutation probability `PROBS["mutation"]`. -/
def PROBS_mutation : ℚ := 1 / 100

/-- One person record as built by `load_data`: optional mother and father
names and optional observed trait.  (The record's redundant `"name"` field,
equal to its dictionary key, is carried by the association-list key.) -/
structure Person where
  mother : Option String
  father : Option String
  trait : Option Bool
deriving DecidableEq

/-- The `people` dictionary: names mapped to person records, in order. -/
abbrev PeopleTable := List (String × Person)

/-- Python's `get_number_of_genes_by_name`: 2 if the name is in `two_genes`,
else 1 if in `one_gene`, else 0. -/
def get_number_of_genes_by_name (person : String) (one_gene two_genes : List String) : ℕ :=
  if person ∈ two_genes then 2
  else if person ∈ one_gene then 1
  else 0

/-- Python's `calculate_probability_of_passing_gene_to_child`.  The source
reads the global constant `PROBS["mutation"]`; it is passed here as the
explicit first argument `mutation` (the program always passes
`PROBS_mutation`), so that the transmission model can be stated for an
arbitrary mutation rate.  The Python `match` has no arm for counts other
than 0, 1, 2 (the program never produces them); the catch-all arm returns 0. -/
def calculate_probability_of_passing_gene_to_child (mutation : ℚ)
    (number_of_parent_genes : ℕ) : ℚ :=
  match number_of_parent_genes with
  | 2 => 1 - mutation
  | 1 => 1 / 2
  | 0 => mutation
  | _ => 0

/-- Python's `calculate_child_gene_probability`: combine the two parents'
independent transmission probabilities into the probability of the child's
gene count.  `mutation` is threaded through as in
`calculate_probability_of_passing_gene_to_child`. -/
def calculate_child_gene_probability (mutation : ℚ)
    (mother_genes father_genes child_number_of_genes : ℕ) : ℚ :=
  let probability_of_mothers_gene :=
    calculate_probability_of_passing_gene_to_child mutation mother_genes
  let probability_of_fathers_gene :=
    calculate_probability_of_passing_gene_to_child mutation father_genes
  match child_number_of_genes with
  | 2 => probability_of_mothers_gene * probability_of_fathers_gene
  | 1 => probability_of_mothers_gene * (1 - probability_of_fathers_gene) +
      probability_of_fathers_gene * (1 - probability_of_mothers_gene)
  | 0 => (1 - probability_of_mothers_gene) * (1 - probability_of_fathers_gene)
  | _ => 0

/-- Python's `joint_probability`: fold over all people, multiplying each
person's gene-count probability (parent-derived when `mother and father` are
both truthy, i.e. both `some`, otherwise the unconditional prior) by the
trait-conditional probability of the person's assigned trait value. -/
def joint_probability (people : PeopleTable) (one_gene two_genes have_trait : List String) : ℚ :=
  people.foldl
    (fun result_probability e =>
      let number_of_genes := get_number_of_genes_by_name e.1 one_gene two_genes
      let gene_probability :=
        match e.2.mother, e.2.father with
        | some mother, some father =>
            calculate_child_gene_probability PROBS_mutation
              (get_number_of_genes_by_name mother one_gene two_genes)
              (get_number_of_genes_by_name father one_gene two_genes)
              number_of_genes
        | _, _ => PROBS_gene number_of_genes
      let trait_probability := PROBS_trait number_of_genes (decide (e.1 ∈ have_trait))
      result_probability * (gene_probability * trait_probability))
    1

/-- Python's `powerset`: all subsets of `s`, enumerated as
`itertools.combinations(s, r)` for each size `r` from 0 to `len(s)`. -/
def powerset {α : Type} (s : List α) : List (List α) :=
  (List.range (s.length + 1)).flatMap (fun r => List.sublistsLen r s)

/-- One row of the input CSV as read by `load_data`: the four string-valued
fields `name`, `mother`, `father`, `trait`. -/
structure CsvRow where
  name : String
  mother : String
  father : String
  trait : String
deriving DecidableEq

/-- Error values.  `zeroDivisionError` is Python's runtime error raised by
`1 / 0.0` inside `normalize`.  The constructor `degenerateEvidenceError` is
modelled from the spec: the spec names an error class `DegenerateEvidenceError`
that the source never defines nor raises; the constructor exists only so the
spec's claimed failure mode is statable.  Likewise `malformedPedigreeError`
is modelled from the spec: the spec's `MalformedPedigreeError` does not occur
anywhere in the source. -/
inductive PyError where
  | zeroDivisionError
  | degenerateEvidenceError
  | malformedPedigreeError
deriving DecidableEq

/-- Python's `load_data`, on the already-parsed CSV rows: build the `people`
dictionary, turning a blank mother/father into `None` and decoding the trait
field ("1" ↦ true, "0" ↦ false, otherwise `None`).  The source performs no
validation whatsoever and has no failure path; the `Except` codomain (which
never carries an error) only makes the spec's claimed failure mode statable. -/
def load_data (rows : List CsvRow) : Except PyError PeopleTable :=
  .ok (rows.map (fun row =>
    (row.name,
      { mother := if row.mother = "" then none else some row.mother
        father := if row.father = "" then none else some row.father
        trait := if row.trait = "1" then some true
          else if row.trait = "0" then some false
          else none })))

/-- Accumulated (and later normalized) per-person distributions: the inner
dictionaries `probabilities[person]["gene"]` and
`probabilities[person]["trait"]`. -/
structure PersonProb where
  gene0 : ℚ
  gene1 : ℚ
  gene2 : ℚ
  traitTrue : ℚ
  traitFalse : ℚ
deriving DecidableEq

/-- The whole `probabilities` dictionary. -/
abbrev Table := List (String × PersonProb)

/-- The initial `probabilities` dictionary built in `main`: every bucket 0. -/
def init_probabilities (people : PeopleTable) : Table :=
  people.map (fun e => (e.1, ⟨0, 0, 0, 0, 0⟩))

/-- Helper for `update`: add `p` into the gene bucket selected by the
person's gene count (0, 1 or 2; never anything else). -/
def add_gene (pp : PersonProb) (number_of_genes : ℕ) (p : ℚ) : PersonProb :=
  match number_of_genes with
  | 0 => { pp with gene0 := pp.gene0 + p }
  | 1 => { pp with gene1 := pp.gene1 + p }
  | 2 => { pp with gene2 := pp.gene2 + p }
  | _ => pp

/-- Helper for `update`: add `p` into the trait bucket selected by the
person's membership in `have_trait`. -/
def add_trait (pp : PersonProb) (b : Bool) (p : ℚ) : PersonProb :=
  if b then { pp with traitTrue := pp.traitTrue + p }
  else { pp with traitFalse := pp.traitFalse + p }

/-- Python's `update`: for every person add the joint probability `p` into
the gene bucket of their assigned gene count and the trait bucket of their
assigned trait value. -/
def update (probabilities : Table) (one_gene two_genes have_trait : List String) (p : ℚ) :
    Table :=
  probabilities.map (fun e =>
    (e.1,
      add_trait (add_gene e.2 (get_number_of_genes_by_name e.1 one_gene two_genes) p)
        (decide (e.1 ∈ have_trait)) p))

/-- Python's `normalize` on one person's buckets: compute
`gene_alpha = 1 / (gene sum)` and `trait_alpha = 1 / (trait sum)` and rescale.
A zero sum makes the Python division `1 / 0.0` raise `ZeroDivisionError`. -/
def normalize_person (pp : PersonProb) : Except PyError PersonProb :=
  let gene_sum := pp.gene2 + pp.gene1 + pp.gene0
  if gene_sum = 0 then .error .zeroDivisionError
  else
    let gene_alpha := 1 / gene_sum
    let trait_sum := pp.traitTrue + pp.traitFalse
    if trait_sum = 0 then .error .zeroDivisionError
    else
      let trait_alpha := 1 / trait_sum
      .ok
        { gene0 := pp.gene0 * gene_alpha
          gene1 := pp.gene1 * gene_alpha
          gene2 := pp.gene2 * gene_alpha
          traitTrue := pp.traitTrue * trait_alpha
          traitFalse := pp.traitFalse * trait_alpha }

/-- Python's `normalize`: rescale every person's two distributions in order,
propagating the first `ZeroDivisionError`. -/
def normalize : Table → Except PyError Table
  | [] => .ok []
  | e :: rest => do
      let q ← normalize_person e.2
      let r ← normalize rest
      .ok ((e.1, q) :: r)

/-- The evidence check of `main`'s outer loop: `have_trait` violates the
recorded evidence when some person has a recorded trait value different from
their membership in `have_trait`. -/
def fails_evidence (people : PeopleTable) (names : List String) (have_trait : List String) :
    Bool :=
  names.any (fun person =>
    match List.lookup person people with
    | some d =>
        match d.trait with
        | some b => ! (b == decide (person ∈ have_trait))
        | none => false
    | none => false)

/-- The assignment enumeration of `main`: every evidence-consistent
`have_trait` subset, then every `one_gene` subset and every `two_genes`
subset of the remaining names, flattened in loop order into a list of
`(have_trait, one_gene, two_genes)` triples. -/
def enumerate_assignments (people : PeopleTable) :
    List (List String × List String × List String) :=
  let names := people.map (fun e => e.1)
  ((powerset names).filter (fun have_trait => ! fails_evidence people names have_trait)).flatMap
    (fun have_trait =>
      (powerset names).flatMap
        (fun one_gene =>
          (powerset (names.filter (fun n => ! decide (n ∈ one_gene)))).map
            (fun two_genes => (have_trait, one_gene, two_genes))))

/-- The accumulation loop of `main`: starting from the all-zero table, add
each enumerated assignment's joint probability into the buckets. -/
def accumulate (people : PeopleTable) : Table :=
  (enumerate_assignments people).foldl
    (fun probabilities a =>
      update probabilities a.2.1 a.2.2 a.1 (joint_probability people a.2.1 a.2.2 a.1))
    (init_probabilities people)

/-- The inference pipeline of `main` after loading: enumerate, accumulate,
normalize.  (Argument parsing and printing are outside the core.) -/
def run_main (people : PeopleTable) : Except PyError Table :=
  normalize (accumulate people)

/-- The joint probability as the spec words it (claim C1): a product over all
persons of a gene factor and a trait factor, where the gene factor is the
unconditional prior when the person has no recorded parents and otherwise is
derived from both parents' assigned gene counts.  The mixed case (exactly one
recorded parent) is outside the spec sentence's case split; it is mapped
to 0 here and excluded by hypothesis where this definition is used. -/
def joint_probability_spec (people : PeopleTable)
    (one_gene two_genes have_trait : List String) : ℚ :=
  (people.map (fun e =>
    (match e.2.mother, e.2.father with
      | none, none => PROBS_gene (get_number_of_genes_by_name e.1 one_gene two_genes)
      | some mother, some father =>
          calculate_child_gene_probability PROBS_mutation
            (get_number_of_genes_by_name mother one_gene two_genes)
            (get_number_of_genes_by_name father one_gene two_genes)
            (get_number_of_genes_by_name e.1 one_gene two_genes)
      | _, _ => 0) *
    PROBS_trait (get_number_of_genes_by_name e.1 one_gene two_genes)
      (decide (e.1 ∈ have_trait)))).prod

/-- A person record with exactly one recorded parent, rewritten as if it had
no recorded parents; records with two or zero recorded parents are kept. -/
def clear_lone_parent (d : Person) : Person :=
  match d.mother, d.father with
  | some _, none => { d with mother := none }
  | none, some _ => { d with father := none }
  | _, _ => d

/-- Componentwise sum of two bucket records. -/
def padd (pp qq : PersonProb) : PersonProb :=
  ⟨pp.gene0 + qq.gene0, pp.gene1 + qq.gene1, pp.gene2 + qq.gene2,
    pp.traitTrue + qq.traitTrue, pp.traitFalse + qq.traitFalse⟩

/-- The marginal sums of a list of assignment triples for one person: for
each bucket, the sum of the joint probabilities of the triples that place the
person in that bucket. -/
def bucket_sums (people : PeopleTable)
    (triples : List (List String × List String × List String)) (q : String) : PersonProb :=
  { gene0 := (triples.map (fun a =>
      if get_number_of_genes_by_name q a.2.1 a.2.2 = 0 then
        joint_probability people a.2.1 a.2.2 a.1 else 0)).sum
    gene1 := (triples.map (fun a =>
      if get_number_of_genes_by_name q a.2.1 a.2.2 = 1 then
        joint_probability people a.2.1 a.2.2 a.1 else 0)).sum
    gene2 := (triples.map (fun a =>
      if get_number_of_genes_by_name q a.2.1 a.2.2 = 2 then
        joint_probability people a.2.1 a.2.2 a.1 else 0)).sum
    traitTrue := (triples.map (fun a =>
      if q ∈ a.1 then joint_probability people a.2.1 a.2.2 a.1 else 0)).sum
    traitFalse := (triples.map (fun a =>
      if q ∈ a.1 then 0 else joint_probability people a.2.1 a.2.2 a.1)).sum }

/-- An enumerated triple `(have_trait, one_gene, two_genes)` represents the
joint assignment `(g, t)` when it matches it on every name of the
population. -/
def matches_assignment (names : List String) (g : String → ℕ) (t : String → Bool)
    (a : List String × List String × List String) : Prop :=
  ∀ p ∈ names, get_number_of_genes_by_name p a.2.1 a.2.2 = g p ∧ (p ∈ a.1 ↔ t p = true)

instance (names : List String) (g : String → ℕ) (t : String → Bool) :
    DecidablePred (matches_assignment names g t) := fun a => by
  unfold matches_assignment; infer_instance

/-- A trait assignment is consistent with the observed evidence when it
agrees with every recorded trait value. -/
def consistent_with_evidence (people : PeopleTable) (t : String → Bool) : Prop :=
  ∀ e ∈ people, ∀ b, e.2.trait = some b → t e.1 = b

instance (people : PeopleTable) (t : String → Bool) :
    Decidable (consistent_with_evidence people t) := by
  unfold consistent_with_evidence; infer_instance

/-- Point update of a gene-count assignment. -/
def updateFn (g : String → ℕ) (x : String) (v : ℕ) : String → ℕ :=
  fun y => if y = x then v else g y

/-- Sum of `F` over all gene-count assignments to the names in `l` (each name
independently 0, 1 or 2), extending the base assignment `g`. -/
def sumG : List String → ((String → ℕ) → ℚ) → (String → ℕ) → ℚ
  | [], F, g => F g
  | x :: l, F, g =>
      sumG l F (updateFn g x 0) + sumG l F (updateFn g x 1) + sumG l F (updateFn g x 2)

/-- The people list is in child-first elimination order: each entry is the
recorded mother or father of no entry at or after it.  A pedigree whose
parent relation is acyclic (the spec's DAG invariant) can always be reordered
this way. -/
def ElimOrder : PeopleTable → Prop
  | [] => True
  | x :: l => (∀ e ∈ x :: l, e.2.mother ≠ some x.1 ∧ e.2.father ≠ some x.1) ∧ ElimOrder l

/-- The trait assignment that copies each person's recorded evidence (`false`
where no evidence is recorded); used to exhibit a consistent assignment. -/
def observed_traits (people : PeopleTable) : String → Bool :=
  fun p =>
    match List.lookup p people with
    | some d => d.trait.getD false
    | none => false

/-- The gene factor of one person as a function of a full gene-count
assignment: the value `joint_probability` multiplies in for that person
(parent-derived when both parents are recorded, the prior otherwise). -/
def gene_factor (e : String × Person) (γ : String → ℕ) : ℚ :=
  match e.2.mother, e.2.father with
  | some mother, some father =>
      calculate_child_gene_probability PROBS_mutation (γ mother) (γ father) (γ e.1)
  | _, _ => PROBS_gene (γ e.1)

/-- Product of all persons' gene factors under one gene-count assignment. -/
def prod_gene_factors (pl : PeopleTable) (γ : String → ℕ) : ℚ :=
  (pl.map (fun e => gene_factor e γ)).prod

/-! ### General lemmas -/

theorem mem_powerset {α : Type} {t s : List α} : t ∈ powerset s ↔ t.Sublist s := by
  unfold powerset
  rw [List.mem_flatMap]
  constructor
  · rintro ⟨r, _, ht⟩
    exact (List.mem_sublistsLen.mp ht).1
  · intro h
    exact ⟨t.length, List.mem_range.mpr (Nat.lt_succ_of_le h.length_le),
      List.mem_sublistsLen.mpr ⟨h, rfl⟩⟩

theorem not_mem_of_mem_powerset {α : Type} {s l : List α} {a : α}
    (hs : s ∈ powerset l) (ha : a ∉ l) : a ∉ s :=
  fun hmem => ha ((mem_powerset.mp hs).subset hmem)

theorem flatMap_append_perm {α β : Type} (l : List α) (f g : α → List β) :
    (l.flatMap (fun x => f x ++ g x)).Perm (l.flatMap f ++ l.flatMap g) := by
  induction l with
  | nil => simp
  | cons x xs ih =>
    simp only [List.flatMap_cons]
    rw [List.append_assoc (f x) (g x) (xs.flatMap fun x => f x ++ g x),
      List.append_assoc (f x) (xs.flatMap f) (g x ++ xs.flatMap g)]
    apply List.Perm.append_left
    refine (List.Perm.append_left (g x) ih).trans ?_
    rw [← List.append_assoc (g x) (xs.flatMap f) (xs.flatMap g),
      ← List.append_assoc (xs.flatMap f) (g x) (xs.flatMap g)]
    exact List.perm_append_comm.append_right _

theorem powerset_nil {α : Type} : powerset ([] : List α) = [[]] := rfl

theorem powerset_cons_perm {α : Type} (a : α) (l : List α) :
    (powerset (a :: l)).Perm (powerset l ++ (powerset l).map (a :: ·)) := by
  have h1 : powerset (a :: l) =
      [[]] ++ (List.range (l.length + 1)).flatMap
        (fun r => List.sublistsLen (r + 1) l ++ (List.sublistsLen r l).map (a :: ·)) := by
    show (List.range (l.length + 1 + 1)).flatMap (fun r => List.sublistsLen r (a :: l)) = _
    rw [List.range_succ_eq_map, List.flatMap_cons, List.flatMap_map]
    simp only [List.sublistsLen_zero, List.sublistsLen_succ_cons]
  have h3 : powerset l =
      [[]] ++ (List.range l.length).flatMap (fun r => List.sublistsLen (r + 1) l) := by
    show (List.range (l.length + 1)).flatMap (fun r => List.sublistsLen r l) = _
    rw [List.range_succ_eq_map, List.flatMap_cons, List.flatMap_map]
    simp only [List.sublistsLen_zero]
  have h4 : (List.range (l.length + 1)).flatMap (fun r => List.sublistsLen (r + 1) l)
      = (List.range l.length).flatMap (fun r => List.sublistsLen (r + 1) l) := by
    rw [List.range_succ, List.flatMap_append]
    simp [List.sublistsLen_of_length_lt (Nat.lt_succ_self _)]
  have h5 : (powerset l).map (a :: ·)
      = (List.range (l.length + 1)).flatMap (fun r => (List.sublistsLen r l).map (a :: ·)) := by
    show List.map _ ((List.range (l.length + 1)).flatMap (fun r => List.sublistsLen r l)) = _
    rw [List.map_flatMap]
  rw [h1]
  refine (List.Perm.append_left [[]]
    (flatMap_append_perm (List.range (l.length + 1))
      (fun r => List.sublistsLen (r + 1) l)
      (fun r => (List.sublistsLen r l).map (a :: ·)))).trans ?_
  rw [← List.append_assoc, h4, ← h3, ← h5]

theorem countP_powerset_cons {α : Type} (a : α) (l : List α) (Q : List α → Bool) :
    (powerset (a :: l)).countP Q
      = (powerset l).countP Q + (powerset l).countP (fun s => Q (a :: s)) := by
  rw [List.Perm.countP_eq Q (powerset_cons_perm a l), List.countP_append, List.countP_map]
  rfl

theorem sum_powerset_cons {α : Type} (a : α) (l : List α) (F : List α → ℚ) :
    ((powerset (a :: l)).map F).sum
      = ((powerset l).map F).sum + ((powerset l).map (fun s => F (a :: s))).sum := by
  rw [List.Perm.sum_eq ((powerset_cons_perm a l).map F), List.map_append, List.sum_append,
    List.map_map]
  rfl

theorem countP_powerset_unique (P : String → Prop) [DecidablePred P] :
    ∀ (l : List String), l.Nodup →
      (powerset l).countP (fun s => decide (∀ x ∈ l, x ∈ s ↔ P x)) = 1
  | [], _ => by simp [powerset_nil]
  | a :: l, hnd => by
    have hal : a ∉ l := (List.nodup_cons.mp hnd).1
    have hl : l.Nodup := (List.nodup_cons.mp hnd).2
    rw [countP_powerset_cons]
    by_cases hP : P a
    · have h1 : (powerset l).countP (fun s => decide (∀ x ∈ a :: l, x ∈ s ↔ P x)) = 0 := by
        rw [List.countP_eq_zero]
        intro s hs
        simp only [decide_eq_true_eq]
        intro hall
        exact absurd ((hall a (List.mem_cons_self a l)).mpr hP) (not_mem_of_mem_powerset hs hal)
      have h2 : (powerset l).countP (fun s => decide (∀ x ∈ a :: l, x ∈ a :: s ↔ P x))
          = (powerset l).countP (fun s => decide (∀ x ∈ l, x ∈ s ↔ P x)) := by
        apply List.countP_congr
        intro s hs
        simp only [decide_eq_true_eq]
        constructor
        · intro hall x hx
          have hxa : x ≠ a := fun h => hal (h ▸ hx)
          rw [← hall x (List.mem_cons_of_mem a hx)]
          simp [List.mem_cons, hxa]
        · intro hall x hx
          rcases List.mem_cons.mp hx with hxa | hxl
          · subst hxa
            simp [hP]
          · have hxa : x ≠ a := fun h => hal (h ▸ hxl)
            rw [← hall x hxl]
            simp [List.mem_cons, hxa]
      rw [h1, h2, countP_powerset_unique P l hl]
    · have h1 : (powerset l).countP (fun s => decide (∀ x ∈ a :: l, x ∈ a :: s ↔ P x)) = 0 := by
        rw [List.countP_eq_zero]
        intro s hs
        simp only [decide_eq_true_eq]
        intro hall
        exact hP ((hall a (List.mem_cons_self a l)).mp (List.mem_cons_self a s))
      have h2 : (powerset l).countP (fun s => decide (∀ x ∈ a :: l, x ∈ s ↔ P x))
          = (powerset l).countP (fun s => decide (∀ x ∈ l, x ∈ s ↔ P x)) := by
        apply List.countP_congr
        intro s hs
        simp only [decide_eq_true_eq]
        constructor
        · intro hall x hx
          exact hall x (List.mem_cons_of_mem a hx)
        · intro hall x hx
          rcases List.mem_cons.mp hx with hxa | hxl
          · subst hxa
            constructor
            · intro hmem
              exact absurd hmem (not_mem_of_mem_powerset hs hal)
            · intro hmem
              exact absurd hmem hP
          · exact hall x hxl
      rw [h1, h2, countP_powerset_unique P l hl]

theorem foldl_mul_eq_prod {α : Type} (fstep g : α → ℚ) :
    ∀ (l : List α), (∀ e ∈ l, fstep e = g e) →
      ∀ acc : ℚ, l.foldl (fun a e => a * fstep e) acc = acc * (l.map g).prod
  | [], _, acc => by simp
  | e :: rest, h, acc => by
    have he : fstep e = g e := h e (List.mem_cons_self e rest)
    rw [List.foldl_cons, he,
      foldl_mul_eq_prod fstep g rest (fun x hx => h x (List.mem_cons_of_mem e hx)) (acc * g e),
      List.map_cons, List.prod_cons]
    ring

theorem normalize_person_ok (pp : PersonProb)
    (hg : pp.gene2 + pp.gene1 + pp.gene0 ≠ 0)
    (ht : pp.traitTrue + pp.traitFalse ≠ 0) :
    normalize_person pp = .ok
      { gene0 := pp.gene0 * (1 / (pp.gene2 + pp.gene1 + pp.gene0))
        gene1 := pp.gene1 * (1 / (pp.gene2 + pp.gene1 + pp.gene0))
        gene2 := pp.gene2 * (1 / (pp.gene2 + pp.gene1 + pp.gene0))
        traitTrue := pp.traitTrue * (1 / (pp.traitTrue + pp.traitFalse))
        traitFalse := pp.traitFalse * (1 / (pp.traitTrue + pp.traitFalse)) } := by
  simp only [normalize_person, if_neg hg, if_neg ht]

theorem normalize_person_error (pp : PersonProb) (err : PyError)
    (h : normalize_person pp = .error err) : err = .zeroDivisionError := by
  by_cases hg : pp.gene2 + pp.gene1 + pp.gene0 = 0
  · simp only [normalize_person, if_pos hg, Except.error.injEq] at h
    exact h.symm
  · by_cases ht : pp.traitTrue + pp.traitFalse = 0
    · simp only [normalize_person, if_neg hg, if_pos ht, Except.error.injEq] at h
      exact h.symm
    · rw [normalize_person_ok pp hg ht] at h
      exact absurd h (by simp)

theorem add_trait_fields (pp : PersonProb) (b : Bool) (p : ℚ) :
    (add_trait pp b p).gene0 = pp.gene0 ∧ (add_trait pp b p).gene1 = pp.gene1 ∧
    (add_trait pp b p).gene2 = pp.gene2 ∧
    (add_trait pp b p).traitTrue = pp.traitTrue + (if b then p else 0) ∧
    (add_trait pp b p).traitFalse = pp.traitFalse + (if b then 0 else p) := by
  cases b <;> simp [add_trait]

theorem add_gene_fields (pp : PersonProb) (n : ℕ) (p : ℚ) :
    (add_gene pp n p).gene0 = pp.gene0 + (if n = 0 then p else 0) ∧
    (add_gene pp n p).gene1 = pp.gene1 + (if n = 1 then p else 0) ∧
    (add_gene pp n p).gene2 = pp.gene2 + (if n = 2 then p else 0) ∧
    (add_gene pp n p).traitTrue = pp.traitTrue ∧
    (add_gene pp n p).traitFalse = pp.traitFalse := by
  match n with
  | 0 => simp [add_gene]
  | 1 => simp [add_gene]
  | 2 => simp [add_gene]
  | n + 3 => simp [add_gene]

theorem foldl_update_eq (people : PeopleTable) :
    ∀ (triples : List (List String × List String × List String)) (tb : Table),
      triples.foldl (fun probabilities a =>
          update probabilities a.2.1 a.2.2 a.1 (joint_probability people a.2.1 a.2.2 a.1)) tb
        = tb.map (fun e => (e.1, padd e.2 (bucket_sums people triples e.1)))
  | [], tb => by
    simp [bucket_sums, padd]
  | a :: tr, tb => by
    rw [List.foldl_cons, foldl_update_eq people tr _]
    unfold update
    rw [List.map_map]
    have hfun : ((fun e => (e.1, padd e.2 (bucket_sums people tr e.1))) ∘
        (fun (e : String × PersonProb) => (e.1,
          add_trait (add_gene e.2 (get_number_of_genes_by_name e.1 a.2.1 a.2.2)
              (joint_probability people a.2.1 a.2.2 a.1))
            (decide (e.1 ∈ a.1)) (joint_probability people a.2.1 a.2.2 a.1))))
        = fun e => (e.1, padd e.2 (bucket_sums people (a :: tr) e.1)) := by
      funext e
      show (e.1, _) = (e.1, _)
      refine congrArg _ ?_
      obtain ⟨hg0, hg1, hg2, htt, htf⟩ := add_trait_fields
        (add_gene e.2 (get_number_of_genes_by_name e.1 a.2.1 a.2.2)
          (joint_probability people a.2.1 a.2.2 a.1))
        (decide (e.1 ∈ a.1)) (joint_probability people a.2.1 a.2.2 a.1)
      obtain ⟨kg0, kg1, kg2, ktt, ktf⟩ := add_gene_fields e.2
        (get_number_of_genes_by_name e.1 a.2.1 a.2.2)
        (joint_probability people a.2.1 a.2.2 a.1)
      simp only [padd, bucket_sums, List.map_cons, List.sum_cons, PersonProb.mk.injEq,
        hg0, hg1, hg2, htt, htf, kg0, kg1, kg2, ktt, ktf, decide_eq_true_eq]
      refine ⟨by ring, by ring, by ring, by ring, by ring⟩
    rw [hfun]

theorem accumulate_eq (people : PeopleTable) :
    accumulate people
      = people.map (fun e => (e.1, bucket_sums people (enumerate_assignments people) e.1)) := by
  unfold accumulate init_probabilities
  rw [foldl_update_eq, List.map_map]
  refine List.map_congr_left ?_
  intro e _
  show (e.1, padd ⟨0, 0, 0, 0, 0⟩ _) = _
  simp [padd]

theorem sum_map_if_eq_countP {α : Type} (l : List α) (P : α → Prop) [DecidablePred P] :
    (l.map (fun x => if P x then (1 : ℕ) else 0)).sum = l.countP (fun x => decide (P x)) := by
  induction l with
  | nil => rfl
  | cons a l ih =>
    rw [List.map_cons, List.sum_cons, List.countP_cons, ih]
    by_cases hP : P a
    · simp [hP, Nat.add_comm]
    · simp [hP]

theorem lookup_of_mem_nodup :
    ∀ (people : PeopleTable), (people.map (fun e => e.1)).Nodup →
      ∀ {e : String × Person}, e ∈ people → List.lookup e.1 people = some e.2
  | [], _, _, he => absurd he (List.not_mem_nil _)
  | x :: rest, hnd, e, he => by
    rcases List.mem_cons.mp he with hex | her
    · subst hex
      show List.lookup e.1 ((e.1, e.2) :: rest) = some e.2
      simp [List.lookup]
    · have hx1 : x.1 ∉ rest.map (fun e => e.1) :=
        (List.nodup_cons.mp (by simpa using hnd)).1
      have hnd' : (rest.map (fun e => e.1)).Nodup :=
        (List.nodup_cons.mp (by simpa using hnd)).2
      have hne : (e.1 == x.1) = false := by
        rw [beq_eq_false_iff_ne]
        exact fun h => hx1 (h ▸ List.mem_map.mpr ⟨e, her, rfl⟩)
      show List.lookup e.1 ((x.1, x.2) :: rest) = some e.2
      rw [List.lookup_cons, hne]
      exact lookup_of_mem_nodup rest hnd' her

theorem matches_assignment_split (names : List String) (g : String → ℕ) (t : String → Bool)
    (ht og tg : List String)
    (hg : ∀ p ∈ names, g p ≤ 2)
    (htg : ∀ x ∈ tg, x ∈ names.filter (fun n => !decide (n ∈ og))) :
    matches_assignment names g t (ht, og, tg) ↔
      (∀ p ∈ names, (p ∈ ht ↔ t p = true)) ∧ (∀ p ∈ names, (p ∈ og ↔ g p = 1)) ∧
      (∀ x ∈ names.filter (fun n => !decide (n ∈ og)), (x ∈ tg ↔ g x = 2)) := by
  have hfilter : ∀ x, x ∈ names.filter (fun n => !decide (n ∈ og)) ↔ x ∈ names ∧ x ∉ og := by
    intro x
    rw [List.mem_filter]
    simp
  constructor
  · intro hm
    refine ⟨fun p hp => (hm p hp).2, ?_, ?_⟩
    · intro p hp
      have hc := (hm p hp).1
      unfold get_number_of_genes_by_name at hc
      constructor
      · intro hpog
        have hptg : p ∉ tg := fun hptg => ((hfilter p).mp (htg p hptg)).2 hpog
        rw [if_neg hptg, if_pos hpog] at hc
        exact hc.symm
      · intro hg1
        by_contra hpog
        by_cases hptg : p ∈ tg
        · rw [if_pos hptg] at hc
          omega
        · rw [if_neg hptg, if_neg hpog] at hc
          omega
    · intro x hx
      obtain ⟨hxn, hxog⟩ := (hfilter x).mp hx
      have hc := (hm x hxn).1
      unfold get_number_of_genes_by_name at hc
      constructor
      · intro hxtg
        rw [if_pos hxtg] at hc
        exact hc.symm
      · intro hg2
        by_contra hxtg
        rw [if_neg hxtg, if_neg hxog] at hc
        omega
  · rintro ⟨hT, hOG, hTG⟩ p hp
    refine ⟨?_, hT p hp⟩
    unfold get_number_of_genes_by_name
    by_cases hptg : p ∈ tg
    · rw [if_pos hptg]
      exact ((hTG p (htg p hptg)).mp hptg).symm
    · rw [if_neg hptg]
      by_cases hpog : p ∈ og
      · rw [if_pos hpog]
        exact ((hOG p hp).mp hpog).symm
      · rw [if_neg hpog]
        have h1 : g p ≠ 1 := fun h => hpog ((hOG p hp).mpr h)
        have h2 : g p ≠ 2 := fun h => hptg ((hTG p ((hfilter p).mpr ⟨hp, hpog⟩)).mpr h)
        have := hg p hp
        omega

theorem decide_mem_eq_of_matching {ht : List String} {t : String → Bool} {p : String}
    (hiff : p ∈ ht ↔ t p = true) : decide (p ∈ ht) = t p := by
  by_cases hmem : p ∈ ht
  · rw [decide_eq_true hmem]
    exact (hiff.mp hmem).symm
  · rw [decide_eq_false hmem]
    cases htv : t p with
    | false => rfl
    | true => exact absurd (hiff.mpr htv) hmem

theorem fails_evidence_false_of_matching (people : PeopleTable)
    (hnd : (people.map (fun e => e.1)).Nodup) (t : String → Bool)
    (hC : consistent_with_evidence people t) (ht : List String)
    (hTm : ∀ p ∈ people.map (fun e => e.1), (p ∈ ht ↔ t p = true)) :
    fails_evidence people (people.map (fun e => e.1)) ht = false := by
  unfold fails_evidence
  rw [List.any_eq_false]
  intro person hperson
  obtain ⟨e, he, rfl⟩ := List.mem_map.mp hperson
  have hd : decide (e.1 ∈ ht) = t e.1 := decide_mem_eq_of_matching (hTm e.1 hperson)
  simp only [lookup_of_mem_nodup people hnd he]
  cases htr : e.2.trait with
  | none => simp
  | some b =>
    have hb : t e.1 = b := hC e he b htr
    simp [hd, hb]

theorem fails_evidence_true_of_matching (people : PeopleTable)
    (hnd : (people.map (fun e => e.1)).Nodup) (t : String → Bool)
    (hnC : ¬ consistent_with_evidence people t) (ht : List String)
    (hTm : ∀ p ∈ people.map (fun e => e.1), (p ∈ ht ↔ t p = true)) :
    fails_evidence people (people.map (fun e => e.1)) ht = true := by
  unfold consistent_with_evidence at hnC
  push_neg at hnC
  obtain ⟨e, he, b, htr, hne⟩ := hnC
  have hperson : e.1 ∈ people.map (fun e => e.1) := List.mem_map.mpr ⟨e, he, rfl⟩
  have hd : decide (e.1 ∈ ht) = t e.1 := decide_mem_eq_of_matching (hTm e.1 hperson)
  unfold fails_evidence
  rw [List.any_eq_true]
  refine ⟨e.1, hperson, ?_⟩
  simp only [lookup_of_mem_nodup people hnd he, htr, hd]
  simp [beq_eq_false_iff_ne, Ne.symm hne]

theorem countP_gene_inner (names : List String) (hnd : names.Nodup) (g : String → ℕ)
    (t : String → Bool) (hg : ∀ p ∈ names, g p ≤ 2) (ht og : List String) :
    (powerset (names.filter (fun n => !decide (n ∈ og)))).countP
        (fun tg => decide (matches_assignment names g t (ht, og, tg)))
      = if (∀ p ∈ names, (p ∈ ht ↔ t p = true)) ∧ (∀ p ∈ names, (p ∈ og ↔ g p = 1))
        then 1 else 0 := by
  by_cases hcond : (∀ p ∈ names, (p ∈ ht ↔ t p = true)) ∧ (∀ p ∈ names, (p ∈ og ↔ g p = 1))
  · rw [if_pos hcond]
    have hcongr : ∀ tg ∈ powerset (names.filter (fun n => !decide (n ∈ og))),
        (decide (matches_assignment names g t (ht, og, tg)) = true ↔
         decide (∀ x ∈ names.filter (fun n => !decide (n ∈ og)), (x ∈ tg ↔ g x = 2)) = true) := by
      intro tg htg
      have hsub : ∀ x ∈ tg, x ∈ names.filter (fun n => !decide (n ∈ og)) :=
        fun x hx => (mem_powerset.mp htg).subset hx
      simp only [decide_eq_true_eq]
      rw [matches_assignment_split names g t ht og tg hg hsub]
      exact ⟨fun h => h.2.2, fun h => ⟨hcond.1, hcond.2, h⟩⟩
    rw [List.countP_congr hcongr]
    exact countP_powerset_unique (fun x => g x = 2) _ (hnd.filter _)
  · rw [if_neg hcond, List.countP_eq_zero]
    intro tg htg
    have hsub : ∀ x ∈ tg, x ∈ names.filter (fun n => !decide (n ∈ og)) :=
      fun x hx => (mem_powerset.mp htg).subset hx
    simp only [decide_eq_true_eq]
    rw [matches_assignment_split names g t ht og tg hg hsub]
    exact fun h => hcond ⟨h.1, h.2.1⟩

theorem countP_trait_outer (people : PeopleTable)
    (hnd : (people.map (fun e => e.1)).Nodup) (t : String → Bool) :
    ((powerset (people.map (fun e => e.1))).filter
        (fun ht => !fails_evidence people (people.map (fun e => e.1)) ht)).countP
        (fun ht => decide (∀ p ∈ people.map (fun (e : String × Person) => e.1),
          (p ∈ ht ↔ t p = true)))
      = if consistent_with_evidence people t then 1 else 0 := by
  rw [List.countP_filter]
  by_cases hC : consistent_with_evidence people t
  · rw [if_pos hC]
    have hcongr : ∀ ht ∈ powerset (people.map (fun e => e.1)),
        ((decide (∀ p ∈ people.map (fun (e : String × Person) => e.1), (p ∈ ht ↔ t p = true)) &&
          !fails_evidence people (people.map (fun e => e.1)) ht) = true ↔
         decide (∀ p ∈ people.map (fun (e : String × Person) => e.1),
           (p ∈ ht ↔ t p = true)) = true) := by
      intro ht _
      rw [Bool.and_eq_true]
      refine ⟨fun h => h.1, fun hTm => ⟨hTm, ?_⟩⟩
      rw [fails_evidence_false_of_matching people hnd t hC ht (of_decide_eq_true hTm)]
      rfl
    rw [List.countP_congr hcongr]
    exact countP_powerset_unique (fun p => t p = true) (people.map (fun e => e.1)) hnd
  · rw [if_neg hC, List.countP_eq_zero]
    intro ht _
    rw [Bool.and_eq_true]
    rintro ⟨hTm, hnf⟩
    rw [fails_evidence_true_of_matching people hnd t hC ht (of_decide_eq_true hTm)] at hnf
    simp at hnf

/-! ### Claim theorems -/

/-- C1: `joint_probability` returns the product over all persons of the
gene-count probability (unconditional prior for a parentless person, the
gene-transmission value otherwise) times the trait-conditional probability of
the person's assigned trait value, for every assignment over a pedigree in
which each person has both parents recorded or neither. -/
theorem c1_joint_probability_is_product (people : PeopleTable)
    (one_gene two_genes have_trait : List String)
    (h : ∀ e ∈ people, e.2.mother.isSome = e.2.father.isSome) :
    joint_probability people one_gene two_genes have_trait =
      joint_probability_spec people one_gene two_genes have_trait := by
  unfold joint_probability joint_probability_spec
  rw [foldl_mul_eq_prod _ _ people _ 1, one_mul]
  intro e he
  have hp := h e he
  cases hm : e.2.mother with
  | none =>
    cases hf : e.2.father with
    | none => simp [hm, hf]
    | some f => rw [hm, hf] at hp; exact absurd hp (by simp)
  | some m =>
    cases hf : e.2.father with
    | none => rw [hm, hf] at hp; exact absurd hp (by simp)
    | some f => simp [hm, hf]

/-- Witness for C1 at a concrete three-person pedigree and assignment. -/
theorem c1_witness :
    joint_probability
        [("A", ⟨none, none, none⟩), ("B", ⟨none, none, none⟩),
          ("C", ⟨some "A", some "B", none⟩)]
        ["A"] [] ["C"] =
      joint_probability_spec
        [("A", ⟨none, none, none⟩), ("B", ⟨none, none, none⟩),
          ("C", ⟨some "A", some "B", none⟩)]
        ["A"] [] ["C"] :=
  c1_joint_probability_is_product _ _ _ _ (by decide)

/-- C3: for every mutation rate, a parent with 2 copies transmits with
probability `1 - m`, with 1 copy with probability exactly 0.5 (independent of
`m`), with 0 copies with probability `m`; and the child's gene-count
probability combines the two transmissions as both / exactly one / neither. -/
theorem c3_transmission_model (m : ℚ) (mother_genes father_genes : ℕ) :
    calculate_probability_of_passing_gene_to_child m 2 = 1 - m ∧
    calculate_probability_of_passing_gene_to_child m 1 = 1 / 2 ∧
    calculate_probability_of_passing_gene_to_child m 0 = m ∧
    calculate_child_gene_probability m mother_genes father_genes 2 =
      calculate_probability_of_passing_gene_to_child m mother_genes *
        calculate_probability_of_passing_gene_to_child m father_genes ∧
    calculate_child_gene_probability m mother_genes father_genes 1 =
      calculate_probability_of_passing_gene_to_child m mother_genes *
        (1 - calculate_probability_of_passing_gene_to_child m father_genes) +
      calculate_probability_of_passing_gene_to_child m father_genes *
        (1 - calculate_probability_of_passing_gene_to_child m mother_genes) ∧
    calculate_child_gene_probability m mother_genes father_genes 0 =
      (1 - calculate_probability_of_passing_gene_to_child m mother_genes) *
        (1 - calculate_probability_of_passing_gene_to_child m father_genes) :=
  ⟨rfl, rfl, rfl, rfl, rfl, rfl⟩

theorem normalize_ok_of_sums_ne_zero (probabilities : Table)
    (h : ∀ e ∈ probabilities,
      e.2.gene2 + e.2.gene1 + e.2.gene0 ≠ 0 ∧ e.2.traitTrue + e.2.traitFalse ≠ 0) :
    ∃ t, normalize probabilities = .ok t ∧
      List.Forall₂ (fun (e e' : String × PersonProb) =>
        e'.1 = e.1 ∧
        e'.2.gene0 = e.2.gene0 / (e.2.gene2 + e.2.gene1 + e.2.gene0) ∧
        e'.2.gene1 = e.2.gene1 / (e.2.gene2 + e.2.gene1 + e.2.gene0) ∧
        e'.2.gene2 = e.2.gene2 / (e.2.gene2 + e.2.gene1 + e.2.gene0) ∧
        e'.2.traitTrue = e.2.traitTrue / (e.2.traitTrue + e.2.traitFalse) ∧
        e'.2.traitFalse = e.2.traitFalse / (e.2.traitTrue + e.2.traitFalse) ∧
        e'.2.gene0 + e'.2.gene1 + e'.2.gene2 = 1 ∧
        e'.2.traitTrue + e'.2.traitFalse = 1) probabilities t := by
  induction probabilities with
  | nil => exact ⟨[], rfl, List.Forall₂.nil⟩
  | cons e rest ih =>
    obtain ⟨hg, ht⟩ := h e (List.mem_cons_self e rest)
    obtain ⟨t, hok, hall⟩ := ih (fun x hx => h x (List.mem_cons_of_mem e hx))
    refine ⟨(e.1,
      { gene0 := e.2.gene0 * (1 / (e.2.gene2 + e.2.gene1 + e.2.gene0))
        gene1 := e.2.gene1 * (1 / (e.2.gene2 + e.2.gene1 + e.2.gene0))
        gene2 := e.2.gene2 * (1 / (e.2.gene2 + e.2.gene1 + e.2.gene0))
        traitTrue := e.2.traitTrue * (1 / (e.2.traitTrue + e.2.traitFalse))
        traitFalse := e.2.traitFalse * (1 / (e.2.traitTrue + e.2.traitFalse)) }) :: t,
      ?_, ?_⟩
    · show normalize (e :: rest) = _
      rw [normalize, normalize_person_ok e.2 hg ht, hok]
      rfl
    · refine List.Forall₂.cons ⟨rfl, (div_eq_mul_one_div _ _).symm, (div_eq_mul_one_div _ _).symm,
        (div_eq_mul_one_div _ _).symm, (div_eq_mul_one_div _ _).symm, (div_eq_mul_one_div _ _).symm,
        ?_, ?_⟩ hall
      · show e.2.gene0 * _ + e.2.gene1 * _ + e.2.gene2 * _ = 1
        field_simp
        ring
      · show e.2.traitTrue * _ + e.2.traitFalse * _ = 1
        field_simp

/-- C4: when every person's gene totals and trait totals have nonzero sums,
`normalize` succeeds and returns, entry by entry, the unnormalized value
divided by its group's sum; each normalized gene distribution and trait
distribution sums to 1. -/
theorem c4_normalize_sums_to_one (probabilities : Table)
    (h : ∀ e ∈ probabilities,
      e.2.gene2 + e.2.gene1 + e.2.gene0 ≠ 0 ∧ e.2.traitTrue + e.2.traitFalse ≠ 0) :
    ∃ t, normalize probabilities = .ok t ∧
      List.Forall₂ (fun (e e' : String × PersonProb) =>
        e'.1 = e.1 ∧
        e'.2.gene0 = e.2.gene0 / (e.2.gene2 + e.2.gene1 + e.2.gene0) ∧
        e'.2.gene1 = e.2.gene1 / (e.2.gene2 + e.2.gene1 + e.2.gene0) ∧
        e'.2.gene2 = e.2.gene2 / (e.2.gene2 + e.2.gene1 + e.2.gene0) ∧
        e'.2.traitTrue = e.2.traitTrue / (e.2.traitTrue + e.2.traitFalse) ∧
        e'.2.traitFalse = e.2.traitFalse / (e.2.traitTrue + e.2.traitFalse) ∧
        e'.2.gene0 + e'.2.gene1 + e'.2.gene2 = 1 ∧
        e'.2.traitTrue + e'.2.traitFalse = 1) probabilities t :=
  normalize_ok_of_sums_ne_zero probabilities h

/-- Witness for C4 at a concrete one-person table. -/
theorem c4_witness :
    ∃ t, normalize [("A", ⟨1, 1, 2, 3, 1⟩)] = .ok t ∧
      List.Forall₂ (fun (e e' : String × PersonProb) =>
        e'.1 = e.1 ∧
        e'.2.gene0 = e.2.gene0 / (e.2.gene2 + e.2.gene1 + e.2.gene0) ∧
        e'.2.gene1 = e.2.gene1 / (e.2.gene2 + e.2.gene1 + e.2.gene0) ∧
        e'.2.gene2 = e.2.gene2 / (e.2.gene2 + e.2.gene1 + e.2.gene0) ∧
        e'.2.traitTrue = e.2.traitTrue / (e.2.traitTrue + e.2.traitFalse) ∧
        e'.2.traitFalse = e.2.traitFalse / (e.2.traitTrue + e.2.traitFalse) ∧
        e'.2.gene0 + e'.2.gene1 + e'.2.gene2 = 1 ∧
        e'.2.traitTrue + e'.2.traitFalse = 1) [("A", ⟨1, 1, 2, 3, 1⟩)] t :=
  c4_normalize_sums_to_one [("A", ⟨1, 1, 2, 3, 1⟩)] (by
    intro e he
    rw [List.mem_singleton] at he
    subst he
    norm_num)

/-- C7 counterexample: on an all-zero table the normalizer fails with
Python's `ZeroDivisionError`, not with the spec's `DegenerateEvidenceError`
(no such error class exists anywhere in the source). -/
theorem c7_counterexample :
    normalize [("A", ⟨0, 0, 0, 0, 0⟩)] = .error .zeroDivisionError ∧
    (Except.error PyError.zeroDivisionError : Except PyError Table) ≠
      .error .degenerateEvidenceError := by
  refine ⟨?_, fun h => absurd (Except.error.inj h) (by decide)⟩
  show (do
    let q ← normalize_person ⟨0, 0, 0, 0, 0⟩
    let r ← normalize []
    Except.ok (("A", q) :: r)) = Except.error PyError.zeroDivisionError
  norm_num [normalize_person]
  rfl

/-- C7 amended: if some person's gene totals (or trait totals) sum to zero,
`normalize` fails with a `ZeroDivisionError` — an error is raised rather than
NaN or garbage being returned. -/
theorem c7_zero_sum_raises (probabilities : Table)
    (h : ∃ e ∈ probabilities,
      e.2.gene2 + e.2.gene1 + e.2.gene0 = 0 ∨ e.2.traitTrue + e.2.traitFalse = 0) :
    normalize probabilities = .error .zeroDivisionError := by
  induction probabilities with
  | nil => obtain ⟨e, he, _⟩ := h; exact absurd he (List.not_mem_nil e)
  | cons e rest ih =>
    obtain ⟨x, hx, hzero⟩ := h
    rcases List.mem_cons.mp hx with hex | hxrest
    · subst hex
      rcases hzero with hg | ht
      · show normalize (x :: rest) = _
        rw [normalize, normalize_person]
        simp only [if_pos hg]
        rfl
      · show normalize (x :: rest) = _
        rw [normalize, normalize_person]
        by_cases hg : x.2.gene2 + x.2.gene1 + x.2.gene0 = 0
        · simp only [if_pos hg]; rfl
        · simp only [if_neg hg, if_pos ht]; rfl
    · have hrest := ih ⟨x, hxrest, hzero⟩
      show normalize (e :: rest) = _
      rw [normalize]
      cases hnp : normalize_person e.2 with
      | error err => rw [normalize_person_error e.2 err hnp]; rfl
      | ok q => simp only [hnp, hrest]; rfl

/-- Witness for C7's amended statement at a concrete table. -/
theorem c7_witness :
    normalize [("A", ⟨1, 2, 3, 0, 0⟩)] = .error .zeroDivisionError :=
  c7_zero_sum_raises [("A", ⟨1, 2, 3, 0, 0⟩)]
    ⟨("A", ⟨1, 2, 3, 0, 0⟩), List.mem_singleton_self _, Or.inr (by norm_num)⟩

/-- C8 counterexample: on a record whose mother reference names nobody in the
collection, `load_data` succeeds and returns the table with the dangling
reference kept — it does not fail with the spec's `MalformedPedigreeError`
(an error class that exists nowhere in the source). -/
theorem c8_counterexample :
    load_data [⟨"Child", "Ghost", "", "1"⟩] =
      .ok [("Child", ⟨some "Ghost", none, some true⟩)] ∧
    load_data [⟨"Child", "Ghost", "", "1"⟩] ≠ .error .malformedPedigreeError := by
  refine ⟨rfl, fun h => ?_⟩
  rw [load_data] at h
  exact absurd h (by simp)

/-- C8 amended: `load_data` performs no validation at all — for every
collection of records (dangling parent references and lone parents included)
construction succeeds, returning the records as given. -/
theorem c8_load_data_never_fails (rows : List CsvRow) :
    ∃ t, load_data rows = .ok t :=
  ⟨_, rfl⟩

/-- C10: a person record with exactly one recorded parent is treated by
`joint_probability` exactly like a parentless record (the lone parent has no
effect), and a lone-parent record's factor is the unconditional prior times
the trait-conditional probability — no error is raised (the function is total
on such records). -/
theorem c10_lone_parent_uses_prior (people : PeopleTable)
    (one_gene two_genes have_trait : List String) :
    (joint_probability people one_gene two_genes have_trait =
      joint_probability (people.map (fun e => (e.1, clear_lone_parent e.2)))
        one_gene two_genes have_trait) ∧
    (∀ (n : String) (mo fa : Option String) (tr : Option Bool),
      joint_probability [(n, ⟨mo, none, tr⟩)] one_gene two_genes have_trait =
        PROBS_gene (get_number_of_genes_by_name n one_gene two_genes) *
          PROBS_trait (get_number_of_genes_by_name n one_gene two_genes)
            (decide (n ∈ have_trait)) ∧
      joint_probability [(n, ⟨none, fa, tr⟩)] one_gene two_genes have_trait =
        PROBS_gene (get_number_of_genes_by_name n one_gene two_genes) *
          PROBS_trait (get_number_of_genes_by_name n one_gene two_genes)
            (decide (n ∈ have_trait))) := by
  constructor
  · unfold joint_probability
    rw [List.foldl_map]
    congr 1
    funext acc e
    cases hm : e.2.mother with
    | none =>
      cases hf : e.2.father with
      | none => simp [clear_lone_parent, hm, hf]
      | some f => simp [clear_lone_parent, hm, hf]
    | some m =>
      cases hf : e.2.father with
      | none => simp [clear_lone_parent, hm, hf]
      | some f => simp [clear_lone_parent, hm, hf]
  · intro n mo fa tr
    constructor
    · show (1 : ℚ) * _ = _
      cases mo <;> simp [joint_probability]
    · show (1 : ℚ) * _ = _
      cases fa <;> simp [joint_probability]

/-- C2: the enumeration in `main` produces, for every joint assignment of
gene counts (each person 0, 1 or 2) and trait values, exactly one triple
matching it when the assignment is consistent with the observed evidence and
none otherwise; and the accumulator's per-bucket totals are exactly the sums
of the joint probabilities of the enumerated triples falling in each
bucket — the marginal sums. -/
theorem c2_enumeration_exactly_once (people : PeopleTable)
    (hnd : (people.map (fun e => e.1)).Nodup)
    (g : String → ℕ) (t : String → Bool)
    (hg : ∀ p ∈ people.map (fun (e : String × Person) => e.1), g p ≤ 2) :
    (enumerate_assignments people).countP
        (fun a => decide (matches_assignment (people.map (fun e => e.1)) g t a))
      = (if consistent_with_evidence people t then 1 else 0) ∧
    accumulate people
      = people.map (fun e => (e.1, bucket_sums people (enumerate_assignments people) e.1)) := by
  refine ⟨?_, accumulate_eq people⟩
  have henum : enumerate_assignments people
      = ((powerset (people.map (fun e => e.1))).filter
          (fun ht => !fails_evidence people (people.map (fun e => e.1)) ht)).flatMap
        (fun ht => (powerset (people.map (fun e => e.1))).flatMap
          (fun og => (powerset ((people.map (fun e => e.1)).filter
              (fun n => !decide (n ∈ og)))).map (fun tg => (ht, og, tg)))) := rfl
  rw [henum, List.countP_flatMap]
  have hmid : List.map
      ((List.countP fun a => decide (matches_assignment (people.map (fun e => e.1)) g t a)) ∘
        fun ht => (powerset (people.map (fun e => e.1))).flatMap
          (fun og => (powerset ((people.map (fun e => e.1)).filter
              (fun n => !decide (n ∈ og)))).map (fun tg => (ht, og, tg))))
      ((powerset (people.map (fun e => e.1))).filter
        (fun ht => !fails_evidence people (people.map (fun e => e.1)) ht))
      = List.map (fun ht => if (∀ p ∈ people.map (fun (e : String × Person) => e.1),
          (p ∈ ht ↔ t p = true)) then (1 : ℕ) else 0)
        ((powerset (people.map (fun e => e.1))).filter
          (fun ht => !fails_evidence people (people.map (fun e => e.1)) ht)) := by
    refine List.map_congr_left ?_
    intro ht _
    show ((powerset (people.map (fun e => e.1))).flatMap
        (fun og => (powerset ((people.map (fun e => e.1)).filter
            (fun n => !decide (n ∈ og)))).map (fun tg => (ht, og, tg)))).countP
        (fun a => decide (matches_assignment (people.map (fun e => e.1)) g t a)) = _
    rw [List.countP_flatMap]
    have hinner : List.map
        ((List.countP fun a => decide (matches_assignment (people.map (fun e => e.1)) g t a)) ∘
          fun og => (powerset ((people.map (fun e => e.1)).filter
              (fun n => !decide (n ∈ og)))).map (fun tg => (ht, og, tg)))
        (powerset (people.map (fun e => e.1)))
        = List.map (fun og =>
            if (∀ p ∈ people.map (fun (e : String × Person) => e.1), (p ∈ ht ↔ t p = true)) ∧
              (∀ p ∈ people.map (fun (e : String × Person) => e.1), (p ∈ og ↔ g p = 1))
            then (1 : ℕ) else 0)
          (powerset (people.map (fun e => e.1))) := by
      refine List.map_congr_left ?_
      intro og _
      show ((powerset ((people.map (fun e => e.1)).filter
          (fun n => !decide (n ∈ og)))).map (fun tg => (ht, og, tg))).countP
          (fun a => decide (matches_assignment (people.map (fun e => e.1)) g t a)) = _
      rw [List.countP_map]
      exact countP_gene_inner (people.map (fun e => e.1)) hnd g t hg ht og
    rw [hinner]
    by_cases hT : ∀ p ∈ people.map (fun (e : String × Person) => e.1), (p ∈ ht ↔ t p = true)
    · rw [if_pos hT]
      have hcg : List.map (fun og =>
            if (∀ p ∈ people.map (fun (e : String × Person) => e.1), (p ∈ ht ↔ t p = true)) ∧
              (∀ p ∈ people.map (fun (e : String × Person) => e.1), (p ∈ og ↔ g p = 1))
            then (1 : ℕ) else 0)
          (powerset (people.map (fun e => e.1)))
          = List.map (fun og =>
              if (∀ p ∈ people.map (fun (e : String × Person) => e.1), (p ∈ og ↔ g p = 1))
              then (1 : ℕ) else 0)
            (powerset (people.map (fun e => e.1))) := by
        refine List.map_congr_left ?_
        intro og _
        by_cases hOG : ∀ p ∈ people.map (fun (e : String × Person) => e.1), (p ∈ og ↔ g p = 1)
        · rw [if_pos ⟨hT, hOG⟩, if_pos hOG]
        · rw [if_neg (fun h => hOG h.2), if_neg hOG]
      rw [hcg, sum_map_if_eq_countP]
      exact countP_powerset_unique (fun p => g p = 1) (people.map (fun e => e.1)) hnd
    · rw [if_neg hT]
      apply List.sum_eq_zero
      intro x hx
      obtain ⟨og, _, rfl⟩ := List.mem_map.mp hx
      rw [if_neg (fun h => hT h.1)]
  rw [hmid, sum_map_if_eq_countP]
  exact countP_trait_outer people hnd t

/-- Witness for C2 at a concrete two-person pedigree with one recorded trait
value, a concrete gene assignment and a concrete trait assignment. -/
theorem c2_witness :
    (enumerate_assignments [("A", ⟨none, none, some true⟩), ("B", ⟨none, none, none⟩)]).countP
        (fun a => decide (matches_assignment
          (([("A", ⟨none, none, some true⟩), ("B", ⟨none, none, none⟩)] : PeopleTable).map
            (fun e => e.1))
          (fun p => if p = "A" then 1 else 0) (fun p => decide (p = "A")) a))
      = (if consistent_with_evidence
            [("A", ⟨none, none, some true⟩), ("B", ⟨none, none, none⟩)]
            (fun p => decide (p = "A")) then 1 else 0) ∧
    accumulate [("A", ⟨none, none, some true⟩), ("B", ⟨none, none, none⟩)]
      = ([("A", ⟨none, none, some true⟩), ("B", ⟨none, none, none⟩)] : PeopleTable).map
        (fun e => (e.1,
          bucket_sums [("A", ⟨none, none, some true⟩), ("B", ⟨none, none, none⟩)]
            (enumerate_assignments
              [("A", ⟨none, none, some true⟩), ("B", ⟨none, none, none⟩)]) e.1)) :=
  c2_enumeration_exactly_once
    [("A", ⟨none, none, some true⟩), ("B", ⟨none, none, none⟩)] (by decide)
    (fun p => if p = "A" then 1 else 0) (fun p => decide (p = "A")) (by decide)

theorem get_number_cases (p : String) (og tg : List String) :
    get_number_of_genes_by_name p og tg = 0 ∨ get_number_of_genes_by_name p og tg = 1 ∨
      get_number_of_genes_by_name p og tg = 2 := by
  unfold get_number_of_genes_by_name
  by_cases h2 : p ∈ tg
  · simp [h2]
  · by_cases h1 : p ∈ og <;> simp [h2, h1]

theorem passing_pos (n : ℕ) (hn : n = 0 ∨ n = 1 ∨ n = 2) :
    0 < calculate_probability_of_passing_gene_to_child PROBS_mutation n ∧
      calculate_probability_of_passing_gene_to_child PROBS_mutation n < 1 := by
  rcases hn with h | h | h <;> subst h <;>
    norm_num [calculate_probability_of_passing_gene_to_child, PROBS_mutation]

theorem PROBS_gene_pos (n : ℕ) (hn : n = 0 ∨ n = 1 ∨ n = 2) : 0 < PROBS_gene n := by
  rcases hn with h | h | h <;> subst h <;> norm_num [PROBS_gene]

theorem PROBS_trait_pos (n : ℕ) (hn : n = 0 ∨ n = 1 ∨ n = 2) (b : Bool) :
    0 < PROBS_trait n b := by
  rcases hn with h | h | h <;> subst h <;> cases b <;> norm_num [PROBS_trait]

theorem child_gene_pos (mg fg c : ℕ) (hmg : mg = 0 ∨ mg = 1 ∨ mg = 2)
    (hfg : fg = 0 ∨ fg = 1 ∨ fg = 2) (hc : c = 0 ∨ c = 1 ∨ c = 2) :
    0 < calculate_child_gene_probability PROBS_mutation mg fg c := by
  obtain ⟨hm0, hm1⟩ := passing_pos mg hmg
  obtain ⟨hf0, hf1⟩ := passing_pos fg hfg
  rcases hc with h | h | h <;> subst h <;>
    simp only [calculate_child_gene_probability]
  · exact mul_pos (by linarith) (by linarith)
  · exact add_pos (mul_pos hm0 (by linarith)) (mul_pos hf0 (by linarith))
  · exact mul_pos hm0 hf0

theorem joint_probability_pos (people : PeopleTable) (og tg ht : List String) :
    0 < joint_probability people og tg ht := by
  unfold joint_probability
  rw [foldl_mul_eq_prod _ (fun e : String × Person =>
      (match e.2.mother, e.2.father with
        | some mother, some father =>
            calculate_child_gene_probability PROBS_mutation
              (get_number_of_genes_by_name mother og tg)
              (get_number_of_genes_by_name father og tg)
              (get_number_of_genes_by_name e.1 og tg)
        | _, _ => PROBS_gene (get_number_of_genes_by_name e.1 og tg)) *
        PROBS_trait (get_number_of_genes_by_name e.1 og tg) (decide (e.1 ∈ ht)))
      people (fun _ _ => rfl) 1, one_mul]
  apply List.prod_pos
  intro x hx
  obtain ⟨e, _, rfl⟩ := List.mem_map.mp hx
  apply mul_pos
  · cases hm : e.2.mother with
    | none => exact PROBS_gene_pos _ (get_number_cases e.1 og tg)
    | some mother =>
      cases hf : e.2.father with
      | none => exact PROBS_gene_pos _ (get_number_cases e.1 og tg)
      | some father =>
        exact child_gene_pos _ _ _ (get_number_cases mother og tg)
          (get_number_cases father og tg) (get_number_cases e.1 og tg)
  · exact PROBS_trait_pos _ (get_number_cases e.1 og tg) _

theorem bucket_sums_totals (people : PeopleTable) (q : String) :
    ∀ (triples : List (List String × List String × List String)),
      ((bucket_sums people triples q).gene2 + (bucket_sums people triples q).gene1 +
          (bucket_sums people triples q).gene0
        = (triples.map (fun a => joint_probability people a.2.1 a.2.2 a.1)).sum) ∧
      ((bucket_sums people triples q).traitTrue + (bucket_sums people triples q).traitFalse
        = (triples.map (fun a => joint_probability people a.2.1 a.2.2 a.1)).sum)
  | [] => by simp [bucket_sums]
  | a :: tr => by
    obtain ⟨ihg, iht⟩ := bucket_sums_totals people q tr
    simp only [bucket_sums, List.map_cons, List.sum_cons] at ihg iht ⊢
    constructor
    · rcases get_number_cases q a.2.1 a.2.2 with h | h | h <;> rw [h] <;> simp <;> linarith
    · by_cases hq : q ∈ a.1 <;> simp [hq] <;> linarith

theorem forall₂_mem_left {α β : Type} {R : α → β → Prop} {l₁ : List α} {l₂ : List β}
    (h : List.Forall₂ R l₁ l₂) : ∀ {x}, x ∈ l₁ → ∃ y ∈ l₂, R x y := by
  induction h with
  | nil => exact fun hx => absurd hx (List.not_mem_nil _)
  | cons hr _ ih =>
    intro x hx
    rcases List.mem_cons.mp hx with hxa | hxl
    · subst hxa
      exact ⟨_, List.mem_cons_self _ _, hr⟩
    · obtain ⟨y, hy, hxy⟩ := ih hxl
      exact ⟨y, List.mem_cons_of_mem _ hy, hxy⟩

theorem mem_enumerate_assignments {people : PeopleTable}
    {a : List String × List String × List String}
    (ha : a ∈ enumerate_assignments people) :
    a.1 ∈ powerset (people.map (fun e => e.1)) ∧
      fails_evidence people (people.map (fun e => e.1)) a.1 = false := by
  have henum : enumerate_assignments people
      = ((powerset (people.map (fun e => e.1))).filter
          (fun ht => !fails_evidence people (people.map (fun e => e.1)) ht)).flatMap
        (fun ht => (powerset (people.map (fun e => e.1))).flatMap
          (fun og => (powerset ((people.map (fun e => e.1)).filter
              (fun n => !decide (n ∈ og)))).map (fun tg => (ht, og, tg)))) := rfl
  rw [henum] at ha
  obtain ⟨ht, hht, ha2⟩ := List.mem_flatMap.mp ha
  obtain ⟨og, _, ha3⟩ := List.mem_flatMap.mp ha2
  obtain ⟨tg, _, rfl⟩ := List.mem_map.mp ha3
  obtain ⟨hpow, hfil⟩ := List.mem_filter.mp hht
  exact ⟨hpow, by simpa using hfil⟩

theorem enum_forces_observed_trait (people : PeopleTable)
    (hnd : (people.map (fun e => e.1)).Nodup)
    {q : String} {d : Person} {b : Bool} (hq : (q, d) ∈ people) (htr : d.trait = some b) :
    ∀ a ∈ enumerate_assignments people, (q ∈ a.1 ↔ b = true) := by
  intro a ha
  obtain ⟨_, hfail⟩ := mem_enumerate_assignments ha
  unfold fails_evidence at hfail
  rw [List.any_eq_false] at hfail
  have hqn : q ∈ people.map (fun e => e.1) := List.mem_map.mpr ⟨(q, d), hq, rfl⟩
  have hbody := hfail q hqn
  simp only [lookup_of_mem_nodup people hnd hq, htr] at hbody
  have hd : b = decide (q ∈ a.1) := by
    by_contra hne
    apply hbody
    simp [beq_eq_false_iff_ne, hne]
  cases b with
  | true =>
    exact ⟨fun _ => rfl, fun _ => of_decide_eq_true hd.symm⟩
  | false =>
    refine ⟨fun hmem => absurd hmem (of_decide_eq_false hd.symm), fun hcontra => ?_⟩
    exact absurd hcontra (by simp)

theorem enum_total_pos (people : PeopleTable)
    (hnd : (people.map (fun e => e.1)).Nodup) :
    0 < ((enumerate_assignments people).map
        (fun a => joint_probability people a.2.1 a.2.2 a.1)).sum := by
  have hcons : consistent_with_evidence people (observed_traits people) := by
    intro e he c htrc
    unfold observed_traits
    rw [lookup_of_mem_nodup people hnd he]
    show e.2.trait.getD false = c
    rw [htrc]
    rfl
  have hTm : ∀ p ∈ people.map (fun e => e.1),
      (p ∈ (people.map (fun e => e.1)).filter (fun p => observed_traits people p) ↔
        observed_traits people p = true) := by
    intro p hp
    rw [List.mem_filter]
    exact ⟨fun h => h.2, fun h => ⟨hp, h⟩⟩
  have hmem : ((people.map (fun e => e.1)).filter (fun p => observed_traits people p),
        ([] : List String), ([] : List String)) ∈ enumerate_assignments people := by
    show _ ∈ ((powerset (people.map (fun e => e.1))).filter
        (fun ht => !fails_evidence people (people.map (fun e => e.1)) ht)).flatMap _
    apply List.mem_flatMap.mpr
    refine ⟨(people.map (fun e => e.1)).filter (fun p => observed_traits people p), ?_, ?_⟩
    · apply List.mem_filter.mpr
      refine ⟨mem_powerset.mpr (List.filter_sublist _), ?_⟩
      rw [fails_evidence_false_of_matching people hnd (observed_traits people) hcons _ hTm]
      rfl
    · apply List.mem_flatMap.mpr
      refine ⟨[], mem_powerset.mpr (List.nil_sublist _), ?_⟩
      exact List.mem_map.mpr ⟨[], mem_powerset.mpr (List.nil_sublist _), rfl⟩
  apply List.sum_pos
  · intro x hx
    obtain ⟨a, _, rfl⟩ := List.mem_map.mp hx
    exact joint_probability_pos people a.2.1 a.2.2 a.1
  · exact List.ne_nil_of_mem (List.mem_map.mpr ⟨_, hmem, rfl⟩)

theorem bucket_traitFalse_zero (people : PeopleTable)
    (triples : List (List String × List String × List String)) (q : String)
    (hall : ∀ a ∈ triples, q ∈ a.1) :
    (bucket_sums people triples q).traitFalse = 0 := by
  apply List.sum_eq_zero
  intro x hx
  obtain ⟨a, ha, rfl⟩ := List.mem_map.mp hx
  rw [if_pos (hall a ha)]

theorem bucket_traitTrue_zero (people : PeopleTable)
    (triples : List (List String × List String × List String)) (q : String)
    (hall : ∀ a ∈ triples, q ∉ a.1) :
    (bucket_sums people triples q).traitTrue = 0 := by
  apply List.sum_eq_zero
  intro x hx
  obtain ⟨a, ha, rfl⟩ := List.mem_map.mp hx
  rw [if_neg (hall a ha)]

theorem sumG_cons (x : String) (l : List String) (F : (String → ℕ) → ℚ) (g : String → ℕ) :
    sumG (x :: l) F g
      = sumG l F (updateFn g x 0) + sumG l F (updateFn g x 1) + sumG l F (updateFn g x 2) :=
  rfl

theorem updateFn_comm {x y : String} (hxy : x ≠ y) (g : String → ℕ) (v w : ℕ) :
    updateFn (updateFn g x v) y w = updateFn (updateFn g y w) x v := by
  funext z
  unfold updateFn
  by_cases hzx : z = x
  · subst hzx
    simp [hxy]
  · by_cases hzy : z = y
    · subst hzy
      simp [Ne.symm hxy, hzx]
    · simp [hzx, hzy]

theorem sumG_update_comm {x : String} :
    ∀ (l : List String), x ∉ l → ∀ (F : (String → ℕ) → ℚ) (g : String → ℕ) (v : ℕ),
      sumG l F (updateFn g x v) = sumG l (fun γ => F (updateFn γ x v)) g
  | [], _, F, g, v => rfl
  | y :: l, hx, F, g, v => by
    have hxy : x ≠ y := fun h => hx (h ▸ List.mem_cons_self y l)
    have hxl : x ∉ l := fun h => hx (List.mem_cons_of_mem y h)
    rw [sumG_cons, sumG_cons, updateFn_comm hxy, updateFn_comm hxy, updateFn_comm hxy,
      sumG_update_comm l hxl F (updateFn g y 0) v, sumG_update_comm l hxl F (updateFn g y 1) v,
      sumG_update_comm l hxl F (updateFn g y 2) v]

theorem sumG_congr {F G : (String → ℕ) → ℚ} (h : ∀ γ, F γ = G γ) (l : List String)
    (g : String → ℕ) : sumG l F g = sumG l G g := by
  have hFG : F = G := funext h
  rw [hFG]

theorem sumG_add (A B : (String → ℕ) → ℚ) :
    ∀ (l : List String) (g : String → ℕ),
      sumG l (fun γ => A γ + B γ) g = sumG l A g + sumG l B g
  | [], _ => rfl
  | x :: l, g => by
    rw [sumG_cons, sumG_cons, sumG_cons, sumG_add A B l (updateFn g x 0),
      sumG_add A B l (updateFn g x 1), sumG_add A B l (updateFn g x 2)]
    ring

theorem sumG_zero : ∀ (l : List String) (g : String → ℕ), sumG l (fun _ => (0 : ℚ)) g = 0
  | [], _ => rfl
  | x :: l, g => by
    rw [sumG_cons, sumG_zero l (updateFn g x 0), sumG_zero l (updateFn g x 1),
      sumG_zero l (updateFn g x 2)]
    norm_num

theorem sumG_mul_left (k : ℚ) (F : (String → ℕ) → ℚ) :
    ∀ (l : List String) (g : String → ℕ), sumG l (fun γ => k * F γ) g = k * sumG l F g
  | [], _ => rfl
  | x :: l, g => by
    rw [sumG_cons, sumG_cons, sumG_mul_left k F l (updateFn g x 0),
      sumG_mul_left k F l (updateFn g x 1), sumG_mul_left k F l (updateFn g x 2)]
    ring

theorem sumG_perm (F : (String → ℕ) → ℚ) :
    ∀ {l₁ l₂ : List String}, l₁.Perm l₂ → l₁.Nodup →
      ∀ g : String → ℕ, sumG l₁ F g = sumG l₂ F g := by
  intro l₁ l₂ hperm
  induction hperm with
  | nil => exact fun _ _ => rfl
  | cons x hp ih =>
    intro hnd g
    have hnd' := (List.nodup_cons.mp hnd).2
    rw [sumG_cons, sumG_cons, ih hnd' (updateFn g x 0), ih hnd' (updateFn g x 1),
      ih hnd' (updateFn g x 2)]
  | swap x y l =>
    intro hnd g
    have hyx : y ≠ x := fun h => (List.nodup_cons.mp hnd).1 (h ▸ List.mem_cons_self x l)
    simp only [sumG_cons]
    simp only [updateFn_comm hyx]
    ring
  | trans h1 _ ih1 ih2 =>
    intro hnd g
    rw [ih1 hnd g, ih2 ((List.Perm.nodup_iff h1).mp hnd) g]

theorem sumG_extract {x : String} :
    ∀ (l : List String), l.Nodup → x ∈ l → ∀ (F : (String → ℕ) → ℚ) (g : String → ℕ),
      sumG l F g
        = sumG (l.erase x) (fun γ => F (updateFn γ x 0)) g
          + sumG (l.erase x) (fun γ => F (updateFn γ x 1)) g
          + sumG (l.erase x) (fun γ => F (updateFn γ x 2)) g
  | [], _, hx, _, _ => absurd hx (List.not_mem_nil _)
  | y :: l, hnd, hx, F, g => by
    have hndl := (List.nodup_cons.mp hnd).2
    by_cases hxy : x = y
    · subst hxy
      rw [List.erase_cons_head, sumG_cons,
        sumG_update_comm l (List.nodup_cons.mp hnd).1 F g 0,
        sumG_update_comm l (List.nodup_cons.mp hnd).1 F g 1,
        sumG_update_comm l (List.nodup_cons.mp hnd).1 F g 2]
    · have hxl : x ∈ l := (List.mem_cons.mp hx).resolve_left hxy
      have herase : (y :: l).erase x = y :: l.erase x := by
        rw [List.erase_cons_tail]
        simp [beq_eq_false_iff_ne]
        exact Ne.symm hxy
      rw [herase, sumG_cons, sumG_extract l hndl hxl F (updateFn g y 0),
        sumG_extract l hndl hxl F (updateFn g y 1),
        sumG_extract l hndl hxl F (updateFn g y 2),
        sumG_cons, sumG_cons, sumG_cons]
      ring

theorem gene_factor_update_invariant (e : String × Person) {x : String}
    (hname : e.1 ≠ x) (hm : e.2.mother ≠ some x) (hf : e.2.father ≠ some x)
    (γ : String → ℕ) (v : ℕ) :
    gene_factor e (updateFn γ x v) = gene_factor e γ := by
  unfold gene_factor
  have hx1 : updateFn γ x v e.1 = γ e.1 := by unfold updateFn; rw [if_neg hname]
  cases hmo : e.2.mother with
  | none =>
    show PROBS_gene (updateFn γ x v e.1) = PROBS_gene (γ e.1)
    rw [hx1]
  | some m =>
    cases hfo : e.2.father with
    | none =>
      show PROBS_gene (updateFn γ x v e.1) = PROBS_gene (γ e.1)
      rw [hx1]
    | some f =>
      have hmx : m ≠ x := fun h => hm (by rw [hmo, h])
      have hfx : f ≠ x := fun h => hf (by rw [hfo, h])
      have h2 : updateFn γ x v m = γ m := by unfold updateFn; rw [if_neg hmx]
      have h3 : updateFn γ x v f = γ f := by unfold updateFn; rw [if_neg hfx]
      show calculate_child_gene_probability PROBS_mutation (updateFn γ x v m)
          (updateFn γ x v f) (updateFn γ x v e.1)
        = calculate_child_gene_probability PROBS_mutation (γ m) (γ f) (γ e.1)
      rw [hx1, h2, h3]

theorem gene_factor_sum_one (e : String × Person) (hm : e.2.mother ≠ some e.1)
    (hf : e.2.father ≠ some e.1) (γ : String → ℕ) :
    gene_factor e (updateFn γ e.1 0) + gene_factor e (updateFn γ e.1 1) +
      gene_factor e (updateFn γ e.1 2) = 1 := by
  have hown : ∀ v, updateFn γ e.1 v e.1 = v := fun v => by unfold updateFn; rw [if_pos rfl]
  unfold gene_factor
  cases hmo : e.2.mother with
  | none =>
    show PROBS_gene (updateFn γ e.1 0 e.1) + PROBS_gene (updateFn γ e.1 1 e.1) +
        PROBS_gene (updateFn γ e.1 2 e.1) = 1
    rw [hown 0, hown 1, hown 2]
    norm_num [PROBS_gene]
  | some m =>
    cases hfo : e.2.father with
    | none =>
      show PROBS_gene (updateFn γ e.1 0 e.1) + PROBS_gene (updateFn γ e.1 1 e.1) +
          PROBS_gene (updateFn γ e.1 2 e.1) = 1
      rw [hown 0, hown 1, hown 2]
      norm_num [PROBS_gene]
    | some f =>
      have hmx : m ≠ e.1 := fun h => hm (by rw [hmo, h])
      have hfx : f ≠ e.1 := fun h => hf (by rw [hfo, h])
      have h2 : ∀ v, updateFn γ e.1 v m = γ m := fun v => by unfold updateFn; rw [if_neg hmx]
      have h3 : ∀ v, updateFn γ e.1 v f = γ f := fun v => by unfold updateFn; rw [if_neg hfx]
      show calculate_child_gene_probability PROBS_mutation (updateFn γ e.1 0 m)
          (updateFn γ e.1 0 f) (updateFn γ e.1 0 e.1) +
        calculate_child_gene_probability PROBS_mutation (updateFn γ e.1 1 m)
          (updateFn γ e.1 1 f) (updateFn γ e.1 1 e.1) +
        calculate_child_gene_probability PROBS_mutation (updateFn γ e.1 2 m)
          (updateFn γ e.1 2 f) (updateFn γ e.1 2 e.1) = 1
      rw [h2 0, h2 1, h2 2, h3 0, h3 1, h3 2, hown 0, hown 1, hown 2]
      show (1 - calculate_probability_of_passing_gene_to_child PROBS_mutation (γ m)) *
          (1 - calculate_probability_of_passing_gene_to_child PROBS_mutation (γ f)) +
        (calculate_probability_of_passing_gene_to_child PROBS_mutation (γ m) *
            (1 - calculate_probability_of_passing_gene_to_child PROBS_mutation (γ f)) +
          calculate_probability_of_passing_gene_to_child PROBS_mutation (γ f) *
            (1 - calculate_probability_of_passing_gene_to_child PROBS_mutation (γ m))) +
        calculate_probability_of_passing_gene_to_child PROBS_mutation (γ m) *
          calculate_probability_of_passing_gene_to_child PROBS_mutation (γ f) = 1
      ring

theorem prod_gene_factors_update_invariant (rest : PeopleTable) (x : String × Person)
    (hch : ∀ e ∈ rest, e.2.mother ≠ some x.1 ∧ e.2.father ≠ some x.1)
    (hx1 : x.1 ∉ rest.map (fun e => e.1)) (γ : String → ℕ) (v : ℕ) :
    prod_gene_factors rest (updateFn γ x.1 v) = prod_gene_factors rest γ := by
  unfold prod_gene_factors
  congr 1
  refine List.map_congr_left ?_
  intro e he
  exact gene_factor_update_invariant e
    (fun h => hx1 (by rw [← h]; exact List.mem_map.mpr ⟨e, he, rfl⟩))
    (hch e he).1 (hch e he).2 γ v

theorem elim_order_erase (e0 : String × Person) :
    ∀ (pl : PeopleTable), ElimOrder pl → ElimOrder (pl.erase e0)
  | [], h => h
  | x :: rest, h => by
    obtain ⟨hch, hrest⟩ := h
    by_cases hx : x = e0
    · subst hx
      rw [List.erase_cons_head]
      exact hrest
    · rw [List.erase_cons_tail (fun hh => hx (eq_of_beq hh))]
      refine ⟨?_, elim_order_erase e0 rest hrest⟩
      intro e he
      rcases List.mem_cons.mp he with hee | hee
      · exact hch e (hee ▸ List.mem_cons_self x rest)
      · exact hch e (List.mem_cons_of_mem x ((rest.erase_sublist e0).subset hee))

theorem map_fst_erase :
    ∀ (pl : PeopleTable), (pl.map (fun e => e.1)).Nodup →
      ∀ {q : String} {d : Person}, (q, d) ∈ pl →
        (pl.erase (q, d)).map (fun e => e.1) = (pl.map (fun e => e.1)).erase q
  | [], _, _, _, h => absurd h (List.not_mem_nil _)
  | x :: rest, hnd, q, d, h => by
    by_cases hx : x = (q, d)
    · subst hx
      rw [List.erase_cons_head, List.map_cons]
      show rest.map (fun e => e.1) = (q :: rest.map (fun e => e.1)).erase q
      rw [List.erase_cons_head]
    · have hqrest : (q, d) ∈ rest := (List.mem_cons.mp h).resolve_left (fun hh => hx hh.symm)
      have hx1 : x.1 ≠ q := by
        intro hh
        have hqm : q ∈ rest.map (fun e => e.1) := List.mem_map.mpr ⟨(q, d), hqrest, rfl⟩
        exact (List.nodup_cons.mp (by simpa using hnd)).1 (hh ▸ hqm)
      have hndr : (rest.map (fun e => e.1)).Nodup := (List.nodup_cons.mp (by simpa using hnd)).2
      rw [List.erase_cons_tail (fun hh => hx (eq_of_beq hh))]
      show x.1 :: (rest.erase (q, d)).map (fun e => e.1) = _
      rw [map_fst_erase rest hndr hqrest]
      show _ = (x.1 :: rest.map (fun e => e.1)).erase q
      rw [List.erase_cons_tail (fun hh => hx1 (eq_of_beq hh))]

theorem elim_sum_one :
    ∀ (pl : PeopleTable), ElimOrder pl → (pl.map (fun e => e.1)).Nodup →
      ∀ g : String → ℕ, sumG (pl.map (fun e => e.1)) (fun γ => prod_gene_factors pl γ) g = 1
  | [], _, _, g => by simp [prod_gene_factors, sumG]
  | x :: rest, hord, hnd, g => by
    obtain ⟨hch, hrest⟩ := hord
    have hndk : (rest.map (fun e => e.1)).Nodup := (List.nodup_cons.mp (by simpa using hnd)).2
    have hx1 : x.1 ∉ rest.map (fun e => e.1) := (List.nodup_cons.mp (by simpa using hnd)).1
    have hchrest : ∀ e ∈ rest, e.2.mother ≠ some x.1 ∧ e.2.father ≠ some x.1 :=
      fun e he => hch e (List.mem_cons_of_mem x he)
    show sumG (x.1 :: rest.map (fun e => e.1)) (fun γ => prod_gene_factors (x :: rest) γ) g = 1
    rw [sumG_cons, sumG_update_comm _ hx1, sumG_update_comm _ hx1, sumG_update_comm _ hx1,
      ← sumG_add, ← sumG_add]
    rw [sumG_congr (G := fun γ => prod_gene_factors rest γ) ?_ (rest.map (fun e => e.1)) g]
    · exact elim_sum_one rest hrest hndk g
    · intro γ
      show prod_gene_factors (x :: rest) (updateFn γ x.1 0) +
          prod_gene_factors (x :: rest) (updateFn γ x.1 1) +
          prod_gene_factors (x :: rest) (updateFn γ x.1 2) = prod_gene_factors rest γ
      have hsplit : ∀ v, prod_gene_factors (x :: rest) (updateFn γ x.1 v)
          = gene_factor x (updateFn γ x.1 v) * prod_gene_factors rest γ := by
        intro v
        unfold prod_gene_factors
        rw [List.map_cons, List.prod_cons]
        rw [show ((rest.map (fun e => gene_factor e (updateFn γ x.1 v))).prod
            = prod_gene_factors rest (updateFn γ x.1 v)) from rfl,
          prod_gene_factors_update_invariant rest x hchrest hx1 γ v]
        rfl
      rw [hsplit 0, hsplit 1, hsplit 2, ← add_mul, ← add_mul,
        gene_factor_sum_one x (hch x (List.mem_cons_self x rest)).1
          (hch x (List.mem_cons_self x rest)).2 γ, one_mul]

theorem trait_subset_sum (h : String → Bool → ℚ) :
    ∀ (l : List String), l.Nodup →
      ((powerset l).map (fun s => (l.map (fun x => h x (decide (x ∈ s)))).prod)).sum
        = (l.map (fun x => h x true + h x false)).prod
  | [], _ => by simp [powerset_nil]
  | a :: l, hnd => by
    have hal : a ∉ l := (List.nodup_cons.mp hnd).1
    have hl : l.Nodup := (List.nodup_cons.mp hnd).2
    rw [sum_powerset_cons]
    have h1 : (powerset l).map (fun s => ((a :: l).map (fun x => h x (decide (x ∈ s)))).prod)
        = (powerset l).map
          (fun s => h a false * (l.map (fun x => h x (decide (x ∈ s)))).prod) := by
      refine List.map_congr_left ?_
      intro s hs
      rw [List.map_cons, List.prod_cons, decide_eq_false (not_mem_of_mem_powerset hs hal)]
    have h2 : (powerset l).map
          (fun s => ((a :: l).map (fun x => h x (decide (x ∈ a :: s)))).prod)
        = (powerset l).map
          (fun s => h a true * (l.map (fun x => h x (decide (x ∈ s)))).prod) := by
      refine List.map_congr_left ?_
      intro s _
      rw [List.map_cons, List.prod_cons, decide_eq_true (List.mem_cons_self a s)]
      refine congrArg _ (congrArg List.prod (List.map_congr_left ?_))
      intro x hx
      have hxa : x ≠ a := fun hh => hal (hh ▸ hx)
      refine congrArg (h x) ?_
      simp [List.mem_cons, hxa]
    rw [h1, h2, List.sum_map_mul_left, List.sum_map_mul_left,
      trait_subset_sum h l hl, List.map_cons, List.prod_cons]
    ring

theorem list_sum_comm {α β : Type} (l1 : List α) (l2 : List β) (f : α → β → ℚ) :
    (l1.map (fun x => (l2.map (f x)).sum)).sum
      = (l2.map (fun y => (l1.map (fun x => f x y)).sum)).sum := by
  induction l1 with
  | nil => simp
  | cons x l1 ih =>
    rw [List.map_cons, List.sum_cons, ih, ← List.sum_map_add]
    refine congrArg List.sum (List.map_congr_left ?_)
    intro y _
    rw [List.map_cons, List.sum_cons]

theorem sum_map_flatMap {α β : Type} (l : List α) (f : α → List β) (F : β → ℚ) :
    ((l.flatMap f).map F).sum = (l.map (fun x => ((f x).map F).sum)).sum := by
  rw [List.map_flatMap, List.flatMap_def, List.sum_flatten, List.map_map]
  rfl

theorem bridge_gene_sum :
    ∀ (l : List String), l.Nodup → ∀ (F : (String → ℕ) → ℚ) (g : String → ℕ),
      ((powerset l).map (fun og =>
          ((powerset (l.filter (fun n => !decide (n ∈ og)))).map
            (fun tg => F (fun p => if p ∈ tg then 2 else if p ∈ og then 1
              else if p ∈ l then 0 else g p))).sum)).sum
        = sumG l F g
  | [], _, F, g => by
    simp only [powerset_nil, List.filter_nil, List.map_cons, List.map_nil, List.sum_cons,
      List.sum_nil, add_zero]
    refine congrArg F (funext fun p => ?_)
    simp
  | a :: l, hnd, F, g => by
    have hal : a ∉ l := (List.nodup_cons.mp hnd).1
    have hl : l.Nodup := (List.nodup_cons.mp hnd).2
    rw [sum_powerset_cons]
    have hfirst : (powerset l).map (fun og =>
        ((powerset ((a :: l).filter (fun n => !decide (n ∈ og)))).map
          (fun tg => F (fun p => if p ∈ tg then 2 else if p ∈ og then 1
            else if p ∈ a :: l then 0 else g p))).sum)
        = (powerset l).map (fun og =>
          (((powerset (l.filter (fun n => !decide (n ∈ og)))).map
            (fun tg => F (fun p => if p ∈ tg then 2 else if p ∈ og then 1
              else if p ∈ l then 0 else updateFn g a 0 p))).sum
          + ((powerset (l.filter (fun n => !decide (n ∈ og)))).map
            (fun tg => F (fun p => if p ∈ a :: tg then 2 else if p ∈ og then 1
              else if p ∈ l then 0 else updateFn g a 2 p))).sum)) := by
      refine List.map_congr_left ?_
      intro og hog
      have haog : a ∉ og := not_mem_of_mem_powerset hog hal
      rw [List.filter_cons_of_pos (by simp [haog]), sum_powerset_cons]
      have hA : (powerset (l.filter (fun n => !decide (n ∈ og)))).map
            (fun tg => F (fun p => if p ∈ tg then 2 else if p ∈ og then 1
              else if p ∈ a :: l then 0 else g p))
          = (powerset (l.filter (fun n => !decide (n ∈ og)))).map
            (fun tg => F (fun p => if p ∈ tg then 2 else if p ∈ og then 1
              else if p ∈ l then 0 else updateFn g a 0 p)) := by
        refine List.map_congr_left ?_
        intro tg htg
        have hatg : a ∉ tg := not_mem_of_mem_powerset htg
          (fun hmem => hal (List.mem_filter.mp hmem).1)
        refine congrArg F (funext fun p => ?_)
        by_cases hpa : p = a
        · subst hpa
          rw [if_neg hatg, if_neg hatg, if_neg haog, if_neg haog,
            if_pos (List.mem_cons_self p l), if_neg hal]
          show (0 : ℕ) = updateFn g p 0 p
          unfold updateFn
          rw [if_pos rfl]
        · refine if_congr Iff.rfl rfl (if_congr Iff.rfl rfl ?_)
          by_cases hpl : p ∈ l
          · rw [if_pos (List.mem_cons_of_mem a hpl), if_pos hpl]
          · rw [if_neg (fun hmem => (List.mem_cons.mp hmem).elim hpa hpl), if_neg hpl]
            show g p = updateFn g a 0 p
            unfold updateFn
            rw [if_neg hpa]
      have hB : (powerset (l.filter (fun n => !decide (n ∈ og)))).map
            (fun tg => F (fun p => if p ∈ a :: tg then 2 else if p ∈ og then 1
              else if p ∈ a :: l then 0 else g p))
          = (powerset (l.filter (fun n => !decide (n ∈ og)))).map
            (fun tg => F (fun p => if p ∈ a :: tg then 2 else if p ∈ og then 1
              else if p ∈ l then 0 else updateFn g a 2 p)) := by
        refine List.map_congr_left ?_
        intro tg htg
        refine congrArg F (funext fun p => ?_)
        by_cases hpa : p = a
        · subst hpa
          rw [if_pos (List.mem_cons_self p tg), if_pos (List.mem_cons_self p tg)]
        · refine if_congr Iff.rfl rfl (if_congr Iff.rfl rfl ?_)
          by_cases hpl : p ∈ l
          · rw [if_pos (List.mem_cons_of_mem a hpl), if_pos hpl]
          · rw [if_neg (fun hmem => (List.mem_cons.mp hmem).elim hpa hpl), if_neg hpl]
            show g p = updateFn g a 2 p
            unfold updateFn
            rw [if_neg hpa]
      rw [hA, hB]
    have hsecond : (powerset l).map (fun og =>
        ((powerset ((a :: l).filter (fun n => !decide (n ∈ a :: og)))).map
          (fun tg => F (fun p => if p ∈ tg then 2 else if p ∈ a :: og then 1
            else if p ∈ a :: l then 0 else g p))).sum)
        = (powerset l).map (fun og =>
          ((powerset (l.filter (fun n => !decide (n ∈ og)))).map
            (fun tg => F (fun p => if p ∈ tg then 2 else if p ∈ og then 1
              else if p ∈ l then 0 else updateFn g a 1 p))).sum) := by
      refine List.map_congr_left ?_
      intro og hog
      have haog : a ∉ og := not_mem_of_mem_powerset hog hal
      have hfc : (a :: l).filter (fun n => !decide (n ∈ a :: og))
          = l.filter (fun n => !decide (n ∈ og)) := by
        rw [List.filter_cons_of_neg (by simp)]
        refine List.filter_congr ?_
        intro x hx
        have hxa : x ≠ a := fun hh => hal (hh ▸ hx)
        simp [List.mem_cons, hxa]
      rw [hfc]
      refine congrArg List.sum (List.map_congr_left ?_)
      intro tg htg
      have hatg : a ∉ tg := not_mem_of_mem_powerset htg
        (fun hmem => hal (List.mem_filter.mp hmem).1)
      refine congrArg F (funext fun p => ?_)
      by_cases hpa : p = a
      · subst hpa
        rw [if_neg hatg, if_neg hatg, if_pos (List.mem_cons_self p og),
          if_neg haog, if_neg hal]
        show (1 : ℕ) = updateFn g p 1 p
        unfold updateFn
        rw [if_pos rfl]
      · refine if_congr Iff.rfl rfl ?_
        have hmo : p ∈ a :: og ↔ p ∈ og := by simp [List.mem_cons, hpa]
        refine if_congr hmo rfl ?_
        by_cases hpl : p ∈ l
        · rw [if_pos (List.mem_cons_of_mem a hpl), if_pos hpl]
        · rw [if_neg (fun hmem => (List.mem_cons.mp hmem).elim hpa hpl), if_neg hpl]
          show g p = updateFn g a 1 p
          unfold updateFn
          rw [if_neg hpa]
    rw [hfirst, hsecond, List.sum_map_add, bridge_gene_sum l hl F (updateFn g a 0),
      bridge_gene_sum l hl F (updateFn g a 1), sumG_cons]
    have hmid : ((powerset l).map (fun og =>
        ((powerset (l.filter (fun n => !decide (n ∈ og)))).map
          (fun tg => F (fun p => if p ∈ a :: tg then 2 else if p ∈ og then 1
            else if p ∈ l then 0 else updateFn g a 2 p))).sum)).sum
        = sumG l F (updateFn g a 2) := by
      rw [← bridge_gene_sum l hl F (updateFn g a 2)]
      refine congrArg List.sum (List.map_congr_left ?_)
      intro og hog
      refine congrArg List.sum (List.map_congr_left ?_)
      intro tg htg
      have hatg : a ∉ tg := not_mem_of_mem_powerset htg
        (fun hmem => hal (List.mem_filter.mp hmem).1)
      refine congrArg F (funext fun p => ?_)
      by_cases hpa : p = a
      · subst hpa
        rw [if_pos (List.mem_cons_self p tg), if_neg hatg,
          if_neg (not_mem_of_mem_powerset hog hal), if_neg hal]
        show (2 : ℕ) = updateFn g p 2 p
        unfold updateFn
        rw [if_pos rfl]
      · have hmt : p ∈ a :: tg ↔ p ∈ tg := by simp [List.mem_cons, hpa]
        exact if_congr hmt rfl rfl
    rw [hmid]
    ring

theorem joint_probability_eq_prod (people : PeopleTable) (og tg ht : List String) :
    joint_probability people og tg ht
      = prod_gene_factors people (fun p => get_number_of_genes_by_name p og tg) *
        ((people.map (fun e => e.1)).map
          (fun x => PROBS_trait (get_number_of_genes_by_name x og tg)
            (decide (x ∈ ht)))).prod := by
  unfold joint_probability
  rw [foldl_mul_eq_prod _ (fun e : String × Person =>
      gene_factor e (fun p => get_number_of_genes_by_name p og tg) *
        PROBS_trait (get_number_of_genes_by_name e.1 og tg) (decide (e.1 ∈ ht)))
      people ?_ 1, one_mul, List.prod_map_mul]
  · congr 1
    rw [List.map_map]
    rfl
  · intro e _
    cases hm : e.2.mother <;> cases hf : e.2.father <;> simp [gene_factor, hm, hf]

theorem trait_row_sum_one (x : String) (og tg : List String) :
    PROBS_trait (get_number_of_genes_by_name x og tg) true +
      PROBS_trait (get_number_of_genes_by_name x og tg) false = 1 := by
  rcases get_number_cases x og tg with h | h | h <;> rw [h] <;> norm_num [PROBS_trait]

theorem marginal_gene_bucket (people : PeopleTable)
    (hnd : (people.map (fun e => e.1)).Nodup)
    (hnoev : ∀ e ∈ people, e.2.trait = none) (q : String) (c : ℕ) :
    ((enumerate_assignments people).map (fun a =>
        if get_number_of_genes_by_name q a.2.1 a.2.2 = c then
          joint_probability people a.2.1 a.2.2 a.1 else 0)).sum
      = sumG (people.map (fun e => e.1))
          (fun γ => (if γ q = c then 1 else 0) * prod_gene_factors people γ)
          (fun _ => 0) := by
  have hff : ∀ ht, fails_evidence people (people.map (fun e => e.1)) ht = false := by
    intro ht
    unfold fails_evidence
    rw [List.any_eq_false]
    intro p hp
    obtain ⟨e, he, rfl⟩ := List.mem_map.mp hp
    simp only [lookup_of_mem_nodup people hnd he, hnoev e he]
    simp
  have henum : enumerate_assignments people
      = (powerset (people.map (fun e => e.1))).flatMap
        (fun ht => (powerset (people.map (fun e => e.1))).flatMap
          (fun og => (powerset ((people.map (fun e => e.1)).filter
              (fun n => !decide (n ∈ og)))).map (fun tg => (ht, og, tg)))) := by
    show ((powerset _).filter _).flatMap _ = _
    congr 1
    apply List.filter_eq_self.mpr
    intro ht _
    rw [hff ht]
    rfl
  rw [henum, sum_map_flatMap]
  have houter : (powerset (people.map (fun e => e.1))).map (fun ht =>
        (((powerset (people.map (fun e => e.1))).flatMap
          (fun og => (powerset ((people.map (fun e => e.1)).filter
              (fun n => !decide (n ∈ og)))).map (fun tg => (ht, og, tg)))).map
          (fun a => if get_number_of_genes_by_name q a.2.1 a.2.2 = c then
            joint_probability people a.2.1 a.2.2 a.1 else 0)).sum)
      = (powerset (people.map (fun e => e.1))).map (fun ht =>
        ((powerset (people.map (fun e => e.1))).map (fun og =>
          ((powerset ((people.map (fun e => e.1)).filter
              (fun n => !decide (n ∈ og)))).map
            (fun tg => if get_number_of_genes_by_name q og tg = c then
              joint_probability people og tg ht else 0)).sum)).sum) := by
    refine List.map_congr_left ?_
    intro ht _
    rw [sum_map_flatMap]
    refine congrArg List.sum (List.map_congr_left ?_)
    intro og _
    rw [List.map_map]
    rfl
  rw [houter, list_sum_comm]
  have hswap2 : (powerset (people.map (fun e => e.1))).map (fun og =>
        ((powerset (people.map (fun e => e.1))).map (fun ht =>
          ((powerset ((people.map (fun e => e.1)).filter
              (fun n => !decide (n ∈ og)))).map
            (fun tg => if get_number_of_genes_by_name q og tg = c then
              joint_probability people og tg ht else 0)).sum)).sum)
      = (powerset (people.map (fun e => e.1))).map (fun og =>
        ((powerset ((people.map (fun e => e.1)).filter
            (fun n => !decide (n ∈ og)))).map (fun tg =>
          (if get_number_of_genes_by_name q og tg = c then (1 : ℚ) else 0) *
            prod_gene_factors people (fun p => get_number_of_genes_by_name p og tg))).sum) := by
    refine List.map_congr_left ?_
    intro og _
    rw [list_sum_comm]
    refine congrArg List.sum (List.map_congr_left ?_)
    intro tg _
    have hjp : ∀ ht, (if get_number_of_genes_by_name q og tg = c then
          joint_probability people og tg ht else 0)
        = ((if get_number_of_genes_by_name q og tg = c then (1 : ℚ) else 0) *
            prod_gene_factors people (fun p => get_number_of_genes_by_name p og tg)) *
          ((people.map (fun e => e.1)).map
            (fun x => PROBS_trait (get_number_of_genes_by_name x og tg)
              (decide (x ∈ ht)))).prod := by
      intro ht
      by_cases hcq : get_number_of_genes_by_name q og tg = c
      · rw [if_pos hcq, if_pos hcq, one_mul, joint_probability_eq_prod]
      · rw [if_neg hcq, if_neg hcq, zero_mul, zero_mul]
    rw [List.map_congr_left (fun ht _ => hjp ht), List.sum_map_mul_left,
      trait_subset_sum (fun x b => PROBS_trait (get_number_of_genes_by_name x og tg) b)
        (people.map (fun e => e.1)) hnd]
    rw [List.prod_eq_one, mul_one]
    intro x hx
    obtain ⟨y, _, rfl⟩ := List.mem_map.mp hx
    exact trait_row_sum_one y og tg
  rw [hswap2, ← bridge_gene_sum (people.map (fun e => e.1)) hnd
    (fun γ => (if γ q = c then 1 else 0) * prod_gene_factors people γ) (fun _ => 0)]
  refine congrArg List.sum (List.map_congr_left ?_)
  intro og _
  refine congrArg List.sum (List.map_congr_left ?_)
  intro tg _
  have hcnt : (fun p => if p ∈ tg then 2 else if p ∈ og then 1
      else if p ∈ people.map (fun e => e.1) then 0 else (fun _ => (0 : ℕ)) p)
      = fun p => get_number_of_genes_by_name p og tg := by
    funext p
    unfold get_number_of_genes_by_name
    by_cases h2 : p ∈ tg
    · simp [h2]
    · by_cases h1 : p ∈ og
      · simp [h2, h1]
      · by_cases hn : p ∈ people.map (fun e => e.1) <;> simp [h2, h1, hn]
  rw [hcnt]

theorem pair_beq_unify (x a : String × Person) :
    (@BEq.beq _ instBEqOfDecidableEq x a) = (x == a) := by
  show decide (x = a) = (x == a)
  rw [beq_eq_decide]
  exact decide_eq_decide.mpr Iff.rfl

theorem erase_unify : ∀ (pl : PeopleTable) (a : String × Person),
    @List.erase _ instBEqOfDecidableEq pl a = pl.erase a
  | [], _ => rfl
  | x :: rest, a => by
    simp only [List.erase_cons]
    rw [pair_beq_unify x a, erase_unify rest a]

theorem marginal_gene_value (people : PeopleTable)
    (hnd : (people.map (fun e => e.1)).Nodup)
    (hdag : ∃ pl', people.Perm pl' ∧ ElimOrder pl')
    (q : String) (d : Person) (hq : (q, d) ∈ people)
    (hdm : d.mother = none) (hdf : d.father = none)
    (c : ℕ) (hc : c = 0 ∨ c = 1 ∨ c = 2) :
    sumG (people.map (fun e => e.1))
        (fun γ => (if γ q = c then 1 else 0) * prod_gene_factors people γ)
        (fun _ => 0)
      = PROBS_gene c := by
  obtain ⟨pl', hperm, hord⟩ := hdag
  have hqn : q ∈ people.map (fun e => e.1) := List.mem_map.mpr ⟨(q, d), hq, rfl⟩
  have hndpl' : (pl'.map (fun e => e.1)).Nodup := ((hperm.map _).nodup_iff).mp hnd
  have hq' : (q, d) ∈ pl' := hperm.mem_iff.mp hq
  have hterm : ∀ v : ℕ,
      sumG ((people.map (fun e => e.1)).erase q)
        (fun γ => (fun γ' => (if γ' q = c then (1 : ℚ) else 0) * prod_gene_factors people γ')
          (updateFn γ q v)) (fun _ => 0)
      = (if v = c then 1 else 0) * PROBS_gene v := by
    intro v
    have hupdq : ∀ γ : String → ℕ, updateFn γ q v q = v := fun γ => by
      unfold updateFn; rw [if_pos rfl]
    have hsplit : ∀ γ : String → ℕ, prod_gene_factors people (updateFn γ q v)
        = PROBS_gene v * prod_gene_factors (people.erase (q, d)) (updateFn γ q v) := by
      intro γ
      unfold prod_gene_factors
      rw [← List.prod_map_erase (fun e => gene_factor e (updateFn γ q v)) hq,
        erase_unify people (q, d)]
      congr 1
      show gene_factor (q, d) (updateFn γ q v) = PROBS_gene v
      simp only [gene_factor, hdm, hdf]
      rw [hupdq γ]
    have hin : sumG ((people.map (fun e => e.1)).erase q)
        (fun γ => prod_gene_factors (people.erase (q, d)) (updateFn γ q v))
        (fun _ => 0) = 1 := by
      have hqer : q ∉ (people.map (fun e => e.1)).erase q :=
        fun h => (hnd.mem_erase_iff.mp h).1 rfl
      rw [← sumG_update_comm _ hqer]
      have hper2 : ((people.map (fun e => e.1)).erase q).Perm
          ((pl'.erase (q, d)).map (fun e => e.1)) := by
        rw [map_fst_erase pl' hndpl' hq']
        exact (hperm.map _).erase q
      rw [sumG_perm _ hper2 (hnd.erase q)]
      have hpe : ∀ γ : String → ℕ, prod_gene_factors (people.erase (q, d)) γ
          = prod_gene_factors (pl'.erase (q, d)) γ := by
        intro γ
        unfold prod_gene_factors
        rw [← erase_unify people (q, d), ← erase_unify pl' (q, d)]
        exact List.Perm.prod_eq ((hperm.erase (q, d)).map _)
      rw [sumG_congr hpe _ _]
      exact elim_sum_one (pl'.erase (q, d)) (elim_order_erase (q, d) pl' hord)
        (by rw [map_fst_erase pl' hndpl' hq']; exact hndpl'.erase q) _
    have hpoint : ∀ γ : String → ℕ,
        (fun γ' => (if γ' q = c then (1 : ℚ) else 0) * prod_gene_factors people γ')
          (updateFn γ q v)
        = ((if v = c then (1 : ℚ) else 0) * PROBS_gene v) *
          prod_gene_factors (people.erase (q, d)) (updateFn γ q v) := by
      intro γ
      show (if updateFn γ q v q = c then (1 : ℚ) else 0) *
          prod_gene_factors people (updateFn γ q v) = _
      rw [hupdq γ, hsplit γ]
      ring
    rw [sumG_congr hpoint _ _, sumG_mul_left, hin, mul_one]
  rw [sumG_extract (people.map (fun e => e.1)) hnd hqn
      (fun γ => (if γ q = c then (1 : ℚ) else 0) * prod_gene_factors people γ) (fun _ => 0),
    hterm 0, hterm 1, hterm 2]
  rcases hc with h | h | h <;> subst h <;> norm_num [PROBS_gene]

/-- C9: the single-person pedigree with observed trait `true`: the run of the
whole pipeline succeeds and the normalized gene-count posterior shifts mass
toward higher counts relative to the unconditional prior (count 2 above 0.01,
count 1 above 0.03, count 0 below 0.96). -/
theorem c9_single_person_posterior_shift :
    ∃ pp : PersonProb,
      run_main [("Harry", ⟨none, none, some true⟩)] = .ok [("Harry", pp)] ∧
      PROBS_gene 2 < pp.gene2 ∧ PROBS_gene 1 < pp.gene1 ∧ pp.gene0 < PROBS_gene 0 := by
  refine ⟨⟨96 / 329, 24 / 47, 65 / 329, 1, 0⟩, ?_, ?_, ?_, ?_⟩
  · norm_num [run_main, accumulate, enumerate_assignments, powerset, fails_evidence,
      joint_probability, update, init_probabilities, normalize, normalize_person,
      add_gene, add_trait, get_number_of_genes_by_name, PROBS_gene, PROBS_trait,
      PROBS_mutation, calculate_child_gene_probability,
      calculate_probability_of_passing_gene_to_child,
      List.sublistsLen_succ_cons, List.sublistsLen_zero, List.lookup]
    rfl
  · norm_num [PROBS_gene]
  · norm_num [PROBS_gene]
  · norm_num [PROBS_gene]

/-- C6: for every pedigree (with distinct names) and every person whose
observed trait is `b`, the enumeration only ever produces assignments placing
that person in the have-trait set exactly when `b` is true, and after
accumulation and normalization that person's trait marginal is exactly 1 for
`b` and 0 for the other value. -/
theorem c6_trait_marginal_by_construction (people : PeopleTable)
    (hnd : (people.map (fun e => e.1)).Nodup)
    (q : String) (d : Person) (b : Bool)
    (hq : (q, d) ∈ people) (htr : d.trait = some b) :
    (∀ a ∈ enumerate_assignments people, (q ∈ a.1 ↔ b = true)) ∧
    ∃ tb pp, run_main people = .ok tb ∧ (q, pp) ∈ tb ∧
      pp.traitTrue = (if b then 1 else 0) ∧ pp.traitFalse = (if b then 0 else 1) := by
  refine ⟨enum_forces_observed_trait people hnd hq htr, ?_⟩
  have hS := enum_total_pos people hnd
  have hacc := accumulate_eq people
  obtain ⟨hgtot, httot⟩ := bucket_sums_totals people q (enumerate_assignments people)
  have hnz : ∀ e ∈ accumulate people,
      e.2.gene2 + e.2.gene1 + e.2.gene0 ≠ 0 ∧ e.2.traitTrue + e.2.traitFalse ≠ 0 := by
    intro e he
    rw [hacc] at he
    obtain ⟨x, _, rfl⟩ := List.mem_map.mp he
    obtain ⟨hg, ht2⟩ := bucket_sums_totals people x.1 (enumerate_assignments people)
    exact ⟨by rw [hg]; exact ne_of_gt hS, by rw [ht2]; exact ne_of_gt hS⟩
  obtain ⟨tb, hok, hall⟩ := normalize_ok_of_sums_ne_zero (accumulate people) hnz
  have hqacc : (q, bucket_sums people (enumerate_assignments people) q) ∈ accumulate people := by
    rw [hacc]
    exact List.mem_map.mpr ⟨(q, d), hq, rfl⟩
  obtain ⟨y, hy, hrel⟩ := forall₂_mem_left hall hqacc
  obtain ⟨y1, y2⟩ := y
  obtain ⟨hy1, _, _, _, hyTT, hyTF, _, _⟩ := hrel
  simp only at hy1 hyTT hyTF
  refine ⟨tb, y2, hok, by rw [← hy1]; exact hy, ?_, ?_⟩
  · rw [hyTT]
    cases b with
    | true =>
      have hf0 : (bucket_sums people (enumerate_assignments people) q).traitFalse = 0 :=
        bucket_traitFalse_zero people _ q (fun a ha =>
          (enum_forces_observed_trait people hnd hq htr a ha).mpr rfl)
      have hTval : (bucket_sums people (enumerate_assignments people) q).traitTrue
          = ((enumerate_assignments people).map
              (fun a => joint_probability people a.2.1 a.2.2 a.1)).sum := by
        rw [← httot, hf0, add_zero]
      rw [hf0, add_zero, div_self (by rw [hTval]; exact ne_of_gt hS)]
      simp
    | false =>
      have ht0 : (bucket_sums people (enumerate_assignments people) q).traitTrue = 0 :=
        bucket_traitTrue_zero people _ q (fun a ha hmem =>
          absurd ((enum_forces_observed_trait people hnd hq htr a ha).mp hmem) (by simp))
      rw [ht0]
      simp
  · rw [hyTF]
    cases b with
    | true =>
      have hf0 : (bucket_sums people (enumerate_assignments people) q).traitFalse = 0 :=
        bucket_traitFalse_zero people _ q (fun a ha =>
          (enum_forces_observed_trait people hnd hq htr a ha).mpr rfl)
      rw [hf0]
      simp
    | false =>
      have ht0 : (bucket_sums people (enumerate_assignments people) q).traitTrue = 0 :=
        bucket_traitTrue_zero people _ q (fun a ha hmem =>
          absurd ((enum_forces_observed_trait people hnd hq htr a ha).mp hmem) (by simp))
      have hTval : (bucket_sums people (enumerate_assignments people) q).traitFalse
          = ((enumerate_assignments people).map
              (fun a => joint_probability people a.2.1 a.2.2 a.1)).sum := by
        rw [← httot, ht0, zero_add]
      rw [ht0, hTval]
      rw [if_neg (by simp)]
      rw [zero_add]
      exact div_self (ne_of_gt hS)

/-- Witness for C6 at a concrete two-person pedigree with person `A` observed
to have the trait. -/
theorem c6_witness :
    (∀ a ∈ enumerate_assignments
        [("A", ⟨none, none, some true⟩), ("B", ⟨none, none, none⟩)],
      ("A" ∈ a.1 ↔ true = true)) ∧
    ∃ tb pp,
      run_main [("A", ⟨none, none, some true⟩), ("B", ⟨none, none, none⟩)] = .ok tb ∧
      ("A", pp) ∈ tb ∧
      pp.traitTrue = (if true then 1 else 0) ∧ pp.traitFalse = (if true then 0 else 1) :=
  c6_trait_marginal_by_construction
    [("A", ⟨none, none, some true⟩), ("B", ⟨none, none, none⟩)] (by decide)
    "A" ⟨none, none, some true⟩ true (List.mem_cons_self _ _) rfl

/-- C5: for any pedigree with no observed trait evidence (names distinct,
parent relation acyclic, i.e. reorderable child-first), every person with no
recorded parents ends, after accumulation over all assignments and
normalization, with gene-count distribution exactly the unconditional prior:
0.96 for count 0, 0.03 for count 1, 0.01 for count 2. -/
theorem c5_no_evidence_root_prior (people : PeopleTable)
    (hnd : (people.map (fun e => e.1)).Nodup)
    (hnoev : ∀ e ∈ people, e.2.trait = none)
    (hdag : ∃ pl', people.Perm pl' ∧ ElimOrder pl')
    (q : String) (d : Person) (hq : (q, d) ∈ people)
    (hdm : d.mother = none) (hdf : d.father = none) :
    ∃ tb pp, run_main people = .ok tb ∧ (q, pp) ∈ tb ∧
      pp.gene0 = PROBS_gene 0 ∧ pp.gene1 = PROBS_gene 1 ∧ pp.gene2 = PROBS_gene 2 := by
  have hS := enum_total_pos people hnd
  have hacc := accumulate_eq people
  have hnz : ∀ e ∈ accumulate people,
      e.2.gene2 + e.2.gene1 + e.2.gene0 ≠ 0 ∧ e.2.traitTrue + e.2.traitFalse ≠ 0 := by
    intro e he
    rw [hacc] at he
    obtain ⟨x, _, rfl⟩ := List.mem_map.mp he
    obtain ⟨hg, ht2⟩ := bucket_sums_totals people x.1 (enumerate_assignments people)
    exact ⟨by rw [hg]; exact ne_of_gt hS, by rw [ht2]; exact ne_of_gt hS⟩
  obtain ⟨tb, hok, hall⟩ := normalize_ok_of_sums_ne_zero (accumulate people) hnz
  have hqacc : (q, bucket_sums people (enumerate_assignments people) q) ∈ accumulate people := by
    rw [hacc]
    exact List.mem_map.mpr ⟨(q, d), hq, rfl⟩
  obtain ⟨y, hy, hrel⟩ := forall₂_mem_left hall hqacc
  obtain ⟨y1, y2⟩ := y
  obtain ⟨hy1, hyG0, hyG1, hyG2, _, _, _, _⟩ := hrel
  simp only at hy1 hyG0 hyG1 hyG2
  have hb : ∀ c : ℕ, c = 0 ∨ c = 1 ∨ c = 2 →
      ((enumerate_assignments people).map (fun a =>
        if get_number_of_genes_by_name q a.2.1 a.2.2 = c then
          joint_probability people a.2.1 a.2.2 a.1 else 0)).sum = PROBS_gene c := by
    intro c hc
    rw [marginal_gene_bucket people hnd hnoev q c]
    exact marginal_gene_value people hnd hdag q d hq hdm hdf c hc
  have hbs0 : (bucket_sums people (enumerate_assignments people) q).gene0 = PROBS_gene 0 :=
    hb 0 (Or.inl rfl)
  have hbs1 : (bucket_sums people (enumerate_assignments people) q).gene1 = PROBS_gene 1 :=
    hb 1 (Or.inr (Or.inl rfl))
  have hbs2 : (bucket_sums people (enumerate_assignments people) q).gene2 = PROBS_gene 2 :=
    hb 2 (Or.inr (Or.inr rfl))
  refine ⟨tb, y2, hok, by rw [← hy1]; exact hy, ?_, ?_, ?_⟩
  · rw [hyG0, hbs0, hbs1, hbs2]
    norm_num [PROBS_gene]
  · rw [hyG1, hbs0, hbs1, hbs2]
    norm_num [PROBS_gene]
  · rw [hyG2, hbs0, hbs1, hbs2]
    norm_num [PROBS_gene]

/-- Witness for C5 at a concrete three-person pedigree (child listed first,
so the list is already in child-first elimination order) with no recorded
evidence; person `A` has no recorded parents. -/
theorem c5_witness :
    ∃ tb pp,
      run_main [("C", ⟨some "A", some "B", none⟩), ("A", ⟨none, none, none⟩),
        ("B", ⟨none, none, none⟩)] = .ok tb ∧
      ("A", pp) ∈ tb ∧
      pp.gene0 = PROBS_gene 0 ∧ pp.gene1 = PROBS_gene 1 ∧ pp.gene2 = PROBS_gene 2 :=
  c5_no_evidence_root_prior
    [("C", ⟨some "A", some "B", none⟩), ("A", ⟨none, none, none⟩),
      ("B", ⟨none, none, none⟩)]
    (by decide) (by decide)
    ⟨[("C", ⟨some "A", some "B", none⟩), ("A", ⟨none, none, none⟩),
        ("B", ⟨none, none, none⟩)],
      List.Perm.refl _, ⟨by decide, by decide, by decide, trivial⟩⟩
    "A" ⟨none, none, none⟩ (by decide) rfl rfl

end Heredity
